import Mathlib

/-!
Verification development for the easy3d repository fragment consisting of
`easy3d/core/polygon_partition.h` (convex partition of polygons) and
`tutorials/Tutorial_304_RealCamera/real_camera.cpp` (camera switching).

The polygon-partition implementation itself is not among the available
sources (only the class declaration is), so the partitioning operations are
modelled from the specification, with exact integer coordinates standing
for the floating-point `vec2` values (the specification's numerical epsilon
is therefore 0).  The camera tutorial functions are embedded directly from
`real_camera.cpp`.
-/

namespace Easy3D

/-! ## Camera tutorial model (`real_camera.cpp`) -/

/-- Calibrated camera parameters of one view (`CameraPara` in `real_camera.h`):
focal lengths, principal point, rotation vector, translation, image size. -/
structure CameraPara where
  fx : ℚ
  fy : ℚ
  cx : ℚ
  cy : ℚ
  rx : ℚ
  ry : ℚ
  rz : ℚ
  tx : ℚ
  ty : ℚ
  tz : ℚ
  w : ℚ
  h : ℚ
  deriving DecidableEq

/-- The all-zero camera parameter record, used as a `getD` default. -/
def dummyPara : CameraPara := ⟨0, 0, 0, 0, 0, 0, 0, 0, 0, 0, 0, 0⟩

/-- A quaternion as constructed by `quat q(axis, angle)`: the model keeps the
constructor arguments (normalized axis and rotation angle). -/
structure Quat where
  axis : ℝ × ℝ × ℝ
  angle : ℝ

/-- Negation of a 3-vector. -/
noncomputable def vneg3 (v : ℝ × ℝ × ℝ) : ℝ × ℝ × ℝ := (-v.1, -v.2.1, -v.2.2)

/-- Componentwise division of a 3-vector by a scalar (`vec3 / float`). -/
noncomputable def vdiv3 (v : ℝ × ℝ × ℝ) (s : ℝ) : ℝ × ℝ × ℝ :=
  (v.1 / s, v.2.1 / s, v.2.2 / s)

/-- Scalar multiple of a 3-vector. -/
noncomputable def smul3 (s : ℝ) (v : ℝ × ℝ × ℝ) : ℝ × ℝ × ℝ :=
  (s * v.1, s * v.2.1, s * v.2.2)

/-- Sum of two 3-vectors. -/
noncomputable def add3 (u v : ℝ × ℝ × ℝ) : ℝ × ℝ × ℝ :=
  (u.1 + v.1, u.2.1 + v.2.1, u.2.2 + v.2.2)

/-- Dot product of 3-vectors. -/
noncomputable def dot3 (u v : ℝ × ℝ × ℝ) : ℝ :=
  u.1 * v.1 + u.2.1 * v.2.1 + u.2.2 * v.2.2

/-- Cross product of 3-vectors. -/
noncomputable def cross3 (u v : ℝ × ℝ × ℝ) : ℝ × ℝ × ℝ :=
  (u.2.1 * v.2.2 - u.2.2 * v.2.1,
   u.2.2 * v.1 - u.1 * v.2.2,
   u.1 * v.2.1 - u.2.1 * v.1)

/-- Euclidean length of a 3-vector (`vec3::length`). -/
noncomputable def norm3 (v : ℝ × ℝ × ℝ) : ℝ :=
  Real.sqrt (v.1 ^ 2 + v.2.1 ^ 2 + v.2.2 ^ 2)

/-- Rotation of a vector by a quaternion (Rodrigues rotation about the
stored axis by the stored angle). -/
noncomputable def qrotate (q : Quat) (v : ℝ × ℝ × ℝ) : ℝ × ℝ × ℝ :=
  add3 (add3 (smul3 (Real.cos q.angle) v)
             (smul3 (Real.sin q.angle) (cross3 q.axis v)))
       (smul3 (dot3 q.axis v * (1 - Real.cos q.angle)) q.axis)

/-- The mutable camera state touched by `KRT_to_camera`: orientation,
position, field of view, and the parameters last passed to
`set_from_calibration`. -/
structure Camera where
  orientation : Quat
  position : ℝ × ℝ × ℝ
  fieldOfView : ℝ
  calibration : Option (ℚ × ℚ × ℚ × ℚ × ℚ × (ℚ × ℚ × ℚ) × (ℚ × ℚ × ℚ))

/-- Model of `Camera::set_from_calibration`. -/
def set_from_calibration (c : Camera) (fx fy skew cx cy : ℚ)
    (rvec tvec : ℚ × ℚ × ℚ) : Camera :=
  { c with calibration := some (fx, fy, skew, cx, cy, rvec, tvec) }

/-- Model of `Camera::setOrientation`. -/
def setOrientation (c : Camera) (q : Quat) : Camera := { c with orientation := q }

/-- Model of `Camera::setPosition`. -/
def setPosition (c : Camera) (p : ℝ × ℝ × ℝ) : Camera := { c with position := p }

/-- Model of `Camera::setFieldOfView`. -/
def setFieldOfView (c : Camera) (f : ℝ) : Camera := { c with fieldOfView := f }

/-- The divisor used by the method-2 branch of `RealCamera::KRT_to_camera`:
`angle = rot_vec.length()` where `rot_vec = vec3(-rx, -ry, -rz)`. -/
noncomputable def methodTwoAngle (v : CameraPara) : ℝ :=
  norm3 (-(v.rx : ℝ), -(v.ry : ℝ), -(v.rz : ℝ))

/-- Model of `RealCamera::KRT_to_camera` (lines 144-179 of
`real_camera.cpp`): bounds check on the view index (including the dead
`view_index < 0` test on the unsigned index), then one of two camera update
strategies selected by `method`; any in-range call returns `true`.  The
`load_image` call touches only the texture and is not part of the camera
state. -/
noncomputable def KRT_to_camera (views : List CameraPara) (view_index : ℕ)
    (method : ℤ) (c : Camera) : Bool × Camera :=
  if view_index < 0 ∨ views.length ≤ view_index then (false, c)
  else
    let cam := views.getD view_index dummyPara
    if method = 1 then
      (true, set_from_calibration c cam.fx cam.fy 0 cam.cx cam.cy
               (cam.rx, cam.ry, cam.rz) (cam.tx, cam.ty, cam.tz))
    else if method = 2 then
      let rot_vec : ℝ × ℝ × ℝ := (-(cam.rx : ℝ), -(cam.ry : ℝ), -(cam.rz : ℝ))
      let angle : ℝ := methodTwoAngle cam
      let q : Quat := ⟨vdiv3 rot_vec angle, angle⟩
      let c1 := setOrientation c q
      let pos : ℝ × ℝ × ℝ := ((cam.tx : ℝ), (cam.ty : ℝ), (cam.tz : ℝ))
      let c2 := setPosition c1 (vneg3 (qrotate q pos))
      let proj5 : ℝ := 2 * (cam.fy : ℝ) / (cam.h : ℝ)
      let c3 := setFieldOfView c2 (2 * Real.arctan (1 / proj5))
      (true, c3)
    else (true, c)

/-- GLFW key code for the space bar. -/
def GLFW_KEY_SPACE : ℤ := 32

/-- GLFW key code for the digit 1. -/
def GLFW_KEY_1 : ℤ := 49

/-- GLFW key code for the digit 2. -/
def GLFW_KEY_2 : ℤ := 50

/-- GLFW key code for the letter H. -/
def GLFW_KEY_H : ℤ := 72

/-- The `RealCamera` viewer state touched by `key_press_event`. -/
structure ViewerState where
  current_view : ℕ
  views : List CameraPara
  camera : Camera
  title : String
  width : ℚ
  height : ℚ

/-- Model of `RealCamera::key_press_event` (lines 82-130 of
`real_camera.cpp`).  Space advances `current_view_` modulo the number of
views and switches to it with method 2; keys 1 and 2 re-apply the current
view with methods 1 and 2; H toggles a drawable (outside the modelled
state); any other key is forwarded to the base `Viewer` handler, which has
no access to the `current_view_` member. -/
noncomputable def key_press_event (st : ViewerState) (key _modifiers : ℤ) :
    Bool × ViewerState :=
  if key = GLFW_KEY_SPACE then
    if st.views.isEmpty then (true, st)
    else
      let cv := (st.current_view + 1) % st.views.length
      let st1 := { st with current_view := cv }
      let r := KRT_to_camera st1.views cv 2 st1.camera
      let st2 := { st1 with camera := r.2 }
      if r.1 then
        let c := st2.views.getD cv dummyPara
        (true, { st2 with title := String.append "RealCamera: View_" (toString cv),
                          width := c.w * (3 / 10), height := c.h * (3 / 10) })
      else (true, st2)
  else if key = GLFW_KEY_1 then
    if st.views.isEmpty then (true, st)
    else
      let r := KRT_to_camera st.views st.current_view 1 st.camera
      let st2 := { st with camera := r.2 }
      if r.1 then
        let c := st2.views.getD st.current_view dummyPara
        (true, { st2 with width := c.w * (3 / 10), height := c.h * (3 / 10) })
      else (true, st2)
  else if key = GLFW_KEY_2 then
    if st.views.isEmpty then (true, st)
    else
      let r := KRT_to_camera st.views st.current_view 2 st.camera
      let st2 := { st with camera := r.2 }
      if r.1 then
        let c := st2.views.getD st.current_view dummyPara
        (true, { st2 with width := c.w * (3 / 10), height := c.h * (3 / 10) })
      else (true, st2)
  else if key = GLFW_KEY_H then (true, st)
  else (false, st)

/-! ## Polygon partition model (`easy3d/core/polygon_partition.h`)

Only the `PolygonPartition` class declaration is among the sources, so the
operations below are modelled from the specification (sections 4.1-4.7).
Coordinates are exact integers (the specification's numerical epsilon is
0 under exact arithmetic); signed areas are kept doubled so that they stay
integral. -/

/-- A 2-D point with exact integer coordinates (model of `vec2`). -/
abbrev Pt : Type := ℤ × ℤ

/-- Modelled from the spec (4.1): the doubled signed area of the triangle
`(a, b, c)`, the cross product of `(b - a)` and `(c - b)` whose sign
classifies the turn at `b` (positive: left turn, negative: right turn,
zero: collinear). -/
def crossTurn (a b c : Pt) : ℤ :=
  (b.1 - a.1) * (c.2 - b.2) - (b.2 - a.2) * (c.1 - b.1)

/-- Determinant of two points, the edge term of the shoelace formula. -/
def det (a b : Pt) : ℤ := a.1 * b.2 - a.2 * b.1

/-- Sum of `det` over the consecutive pairs of the path `a :: l`. -/
def walk (a : Pt) : List Pt → ℤ
  | [] => 0
  | q :: t => det a q + walk q t

/-- Doubled signed area of a closed polygon (shoelace formula over all
edges, including the closing edge back to the first vertex); positive for
counter-clockwise loops. -/
def area2 : List Pt → ℤ
  | [] => 0
  | p :: t => walk p (t ++ [p])

/-- Cyclic vertex access into a polygon (indices are taken modulo the
length). -/
def vtx (P : List Pt) (i : ℕ) : Pt := P.getD (i % P.length) (0, 0)

/-- Modelled from the spec (data model / 8): a loop is convex as an ordered
point sequence when every consecutive turn is a left turn or collinear
(uniform sign with collinear triples tolerated, for counter-clockwise
loops). -/
def isConvexLoop (P : List Pt) : Bool :=
  (List.range P.length).all fun i =>
    0 ≤ crossTurn (vtx P (i + P.length - 1)) (vtx P i) (vtx P (i + 1))

/-- Modelled from the spec (4.1): `p` lies on the closed segment `[a, b]`
(collinear and within the bounding box). -/
def onSegment (a b p : Pt) : Bool :=
  crossTurn a b p = 0 && min a.1 b.1 ≤ p.1 && p.1 ≤ max a.1 b.1 &&
    min a.2 b.2 ≤ p.2 && p.2 ≤ max a.2 b.2

/-- Modelled from the spec (4.1): proper intersection of the open segments
`(p1, p2)` and `(p3, p4)` (each segment's endpoints strictly on opposite
sides of the other segment; shared endpoints are excluded). -/
def properInter (p1 p2 p3 p4 : Pt) : Bool :=
  let d1 := crossTurn p3 p4 p1
  let d2 := crossTurn p3 p4 p2
  let d3 := crossTurn p1 p2 p3
  let d4 := crossTurn p1 p2 p4
  ((0 < d1 && d2 < 0) || (d1 < 0 && 0 < d2)) &&
    ((0 < d3 && d4 < 0) || (d3 < 0 && 0 < d4))

/-- Segments `[p1, p2]` and `[p3, p4]` meet at all (proper crossing or an
endpoint of one lying on the other). -/
def segTouch (p1 p2 p3 p4 : Pt) : Bool :=
  properInter p1 p2 p3 p4 || onSegment p1 p2 p3 || onSegment p1 p2 p4 ||
    onSegment p3 p4 p1 || onSegment p3 p4 p2

/-- The pairwise edge scan of the simplicity test: non-adjacent edges do
not meet at all, and adjacent edges share only their common endpoint (no
collinear overlap). -/
def edgePairsOk (P : List Pt) : Bool :=
  let n := P.length
  (List.range n).all fun i =>
    (List.range n).all fun j =>
      if i < j then
        if j = i + 1 then
          !(onSegment (vtx P i) (vtx P (i + 1)) (vtx P (j + 1))) &&
            !(onSegment (vtx P j) (vtx P (j + 1)) (vtx P i))
        else if i = 0 && j = n - 1 then
          !(onSegment (vtx P j) (vtx P (j + 1)) (vtx P 1)) &&
            !(onSegment (vtx P 0) (vtx P 1) (vtx P j))
        else
          !(segTouch (vtx P i) (vtx P (i + 1)) (vtx P j) (vtx P (j + 1)))
      else true

/-- Modelled from the spec (data model / 7): a polygon is simple when it
has at least 3 pairwise distinct vertices and its boundary does not
self-intersect (the pairwise edge scan passes). -/
def isSimplePoly (P : List Pt) : Bool :=
  decide (3 ≤ P.length) && decide P.Nodup && edgePairsOk P

/-- One step of the ray-crossing test: the directed edge `(a, b)` crosses
the horizontal ray from `q` (winding-compatible half-open rule, exact). -/
def edgeCrosses (q a b : Pt) : Bool :=
  (a.2 ≤ q.2 && q.2 < b.2 && 0 < crossTurn a b q) ||
    (b.2 ≤ q.2 && q.2 < a.2 && crossTurn a b q < 0)

/-- Modelled from the spec (4.1/4.3): a standard point-in-polygon
ray-crossing test (odd number of boundary crossings of a horizontal ray). -/
def inPoly (q : Pt) (P : List Pt) : Bool :=
  ((List.range P.length).filter fun i =>
    edgeCrosses q (vtx P i) (vtx P (i + 1))).length % 2 = 1

/-- Vertex lookup in a shared point table (out-of-range indices return the
origin; validation rejects them). -/
def vAt (pts : List Pt) (i : ℕ) : Pt := pts.getD i (0, 0)

/-- Positions `p` and `q` are non-adjacent on a cyclic loop of length `n`. -/
def nonadjacent (n p q : ℕ) : Bool :=
  !(p = q) && !((p + 1) % n = q) && !((q + 1) % n = p)

/-- Doubling of all coordinates, used to evaluate segment midpoints without
leaving the integers. -/
def doublePoly (P : List Pt) : List Pt := P.map fun r => (2 * r.1, 2 * r.2)

/-- Modelled from the spec (4.3): positions `p, q` of the polygon form a
valid diagonal when they are non-adjacent, the open segment between them
does not properly intersect any boundary edge, and the segment's midpoint
lies inside the polygon by the ray-crossing test (evaluated exactly on the
doubled polygon). -/
def validDiagonal (P : List Pt) (p q : ℕ) : Bool :=
  nonadjacent P.length p q &&
    ((List.range P.length).all fun i =>
      !(properInter (vtx P p) (vtx P q) (vtx P i) (vtx P (i + 1)))) &&
    inPoly ((vtx P p).1 + (vtx P q).1, (vtx P p).2 + (vtx P q).2) (doublePoly P)

/-- Modelled from the spec (scenario 8 / convex input): the vertices are in
strictly convex position, listed counter-clockwise: every index triple in
increasing order makes a strict left turn. -/
def strictConvexPos (P : List Pt) : Bool :=
  (List.range P.length).all fun k =>
    (List.range k).all fun j =>
      (List.range j).all fun i =>
        decide (0 < crossTurn (vAt P i) (vAt P j) (vAt P k))

/-- Point `p` lies in the closed triangle `(a, b, c)` (for a
counter-clockwise triangle). -/
def inTriangle (a b c p : Pt) : Bool :=
  0 ≤ crossTurn a b p && 0 ≤ crossTurn b c p && 0 ≤ crossTurn c a p

/-- Modelled from the spec (4.2): position `k` of the working vertex list
`rem` (indices into the point table `Q`) is an ear: the triangle with its
two cyclic neighbours is a left turn, and no other remaining vertex (other
than ones coinciding with a corner) lies in that triangle. -/
def isEar (Q : List Pt) (rem : List ℕ) (k : ℕ) : Bool :=
  let m := rem.length
  let ia := rem.getD ((k + m - 1) % m) 0
  let ib := rem.getD k 0
  let ic := rem.getD ((k + 1) % m) 0
  let a := vAt Q ia
  let b := vAt Q ib
  let c := vAt Q ic
  decide (0 < crossTurn a b c) &&
    rem.all fun j =>
      decide (j = ia) || decide (j = ib) || decide (j = ic) ||
        decide (vAt Q j = a) || decide (vAt Q j = b) || decide (vAt Q j = c) ||
        !(inTriangle a b c (vAt Q j))

/-- Modelled from the spec (4.2): ear-clipping triangulation.  The first
valid ear in index order is clipped until 3 vertices remain; failure (no
ear) yields `none`.  The extra fuel argument bounds the number of clips
(one vertex is removed per step, so fuel equal to the initial length always
suffices). -/
def triAux (Q : List Pt) : ℕ → List ℕ → Option (List (List ℕ))
  | 0, _ => none
  | fuel + 1, rem =>
    if rem.length < 3 then none
    else if rem.length = 3 then some [rem]
    else
      ((List.range rem.length).find? (fun k => isEar Q rem k)).bind fun k =>
        (triAux Q fuel (rem.eraseIdx k)).map fun rest =>
          [rem.getD ((k + rem.length - 1) % rem.length) 0, rem.getD k 0,
            rem.getD ((k + 1) % rem.length) 0] :: rest

/-- Triangulation of the polygon given by the vertex positions
`0, ..., n-1` of `Q`. -/
def triangulate (Q : List Pt) (rem : List ℕ) : Option (List (List ℕ)) :=
  triAux Q rem.length rem

/-- The loop `piece` contains the directed edge `a -> b` (consecutively in
cyclic order). -/
def hasDirEdge (piece : List ℕ) (a b : ℕ) : Bool :=
  (List.range piece.length).any fun k =>
    decide (piece.getD k 0 = a) && decide (piece.getD ((k + 1) % piece.length) 0 = b)

/-- Position in `piece` of the start of the directed edge `a -> b`. -/
def edgeStart (piece : List ℕ) (a b : ℕ) : ℕ :=
  (List.range piece.length).findIdx fun k =>
    decide (piece.getD k 0 = a) && decide (piece.getD ((k + 1) % piece.length) 0 = b)

/-- Rotation of a loop so that the directed edge `a -> b` becomes the
closing (last-to-first) edge: the result starts at `b` and ends at `a`. -/
def rotEdge (piece : List ℕ) (a b : ℕ) : List ℕ :=
  piece.rotate ((edgeStart piece a b + 1) % piece.length)

/-- Modelled from the spec (4.4): union of the boundaries of two loops
sharing the diagonal `a -> b` / `b -> a`, replacing the two loops by one
merged loop with the diagonal removed. -/
def mergeLoops (X Y : List ℕ) (a b : ℕ) : List ℕ :=
  rotEdge X a b ++ ((rotEdge Y b a).drop 1).dropLast

/-- Modelled from the spec (4.4): merging is safe iff at each diagonal
endpoint the angle formed by the two non-shared edges touching that vertex
across both regions is not reflex (cross product nonnegative). -/
def mergeOk (Q : List Pt) (X Y : List ℕ) (a b : ℕ) : Bool :=
  let X2 := rotEdge X a b
  let intY := ((rotEdge Y b a).drop 1).dropLast
  let prevA := X2.getD (X2.length - 2) 0
  let nextA := intY.headD b
  let prevB := intY.getLastD a
  let nextB := X2.getD 1 0
  decide (0 ≤ crossTurn (vAt Q prevA) (vAt Q a) (vAt Q nextA)) &&
    decide (0 ≤ crossTurn (vAt Q prevB) (vAt Q b) (vAt Q nextB))

/-- One Hertel-Mehlhorn merge step for the diagonal `d`: find the two
pieces currently sharing it; if the local convexity test passes, replace
them by the merged loop, otherwise leave the diagonal in place. -/
def mergeStep (Q : List Pt) (pieces : List (List ℕ)) (d : ℕ × ℕ) :
    List (List ℕ) :=
  (((pieces.find? fun p => hasDirEdge p d.1 d.2).bind fun X =>
    (pieces.find? fun p => hasDirEdge p d.2 d.1).map fun Y =>
      if X = Y then pieces
      else if mergeOk Q X Y d.1 d.2 then
        mergeLoops X Y d.1 d.2 :: ((pieces.erase X).erase Y)
      else pieces).getD pieces)

/-- The shared diagonals of a triangulation of an `n`-gon, in increasing
index-pair order: vertex position pairs that occur as a triangle edge but
are not boundary edges. -/
def hmDiags (n : ℕ) (tris : List (List ℕ)) : List (ℕ × ℕ) :=
  (List.range n).flatMap fun a =>
    ((List.range n).filter fun b =>
      decide (a < b) && !(decide (b = a + 1)) &&
        !(decide (a = 0) && decide (b = n - 1)) &&
        tris.any (fun t => hasDirEdge t a b || hasDirEdge t b a)).map fun b => (a, b)

/-- Modelled from the spec (4.4): the Hertel-Mehlhorn partitioner:
triangulate, then scan the shared diagonals in deterministic increasing
order, merging whenever the merged region stays locally convex at the two
diagonal endpoints.  The result is a list of loops of vertex positions
`0, ..., n-1` of `Q`. -/
def partitionHMcore (Q : List Pt) : Option (List (List ℕ)) :=
  (triangulate Q (List.range Q.length)).map fun tris =>
    (hmDiags Q.length tris).foldl (mergeStep Q) tris

/-- Modelled from the spec (4.7): polygon validation shared by the facade
operations: at least 3 vertices, simple, counter-clockwise. -/
def validatePoly (P : List Pt) : Bool :=
  isSimplePoly P && decide (0 < area2 P)

/-- The input polygon has a self-intersecting boundary: some pair of
non-adjacent edges meets, or some pair of adjacent edges overlaps beyond
the shared endpoint. -/
def selfIntersecting (P : List Pt) : Bool := !(edgePairsOk P)

/-- Modelled from the spec (4.7/4.4): `PolygonPartition::apply_HM`:
validate, then run the Hertel-Mehlhorn partitioner; on failure the parts
list is left empty.  Output loops are vertex indices into `poly`. -/
def apply_HM (poly : List Pt) : Bool × List (List ℕ) :=
  if validatePoly poly then
    match partitionHMcore poly with
    | some parts => (true, parts)
    | none => (false, [])
  else (false, [])

/-- Keep the decomposition with the fewest pieces (first minimum wins). -/
def chooseMin (l : List (List (List ℕ))) : Option (List (List ℕ)) :=
  l.foldl (fun acc r =>
    match acc with
    | none => some r
    | some b => if r.length < b.length then some r else some b) none

/-- The candidate split diagonals of a sub-polygon: position pairs `p < q`,
non-adjacent, forming a valid diagonal per 4.3. -/
def optCands (pts : List Pt) : List (ℕ × ℕ) :=
  (List.range pts.length).flatMap fun p =>
    ((List.range pts.length).filter fun q =>
      decide (p < q) && nonadjacent pts.length p q && validDiagonal pts p q).map
      fun q => (p, q)

/-- Modelled from the spec (4.5): the optimal partitioner as an exhaustive
minimization over diagonal choices: a convex sub-polygon is one piece;
otherwise every valid diagonal splits the sub-polygon into two chains, and
the decomposition minimizing the total piece count is kept (deterministic
first-minimum tie-break).  `L` is a loop of positions into `P`; the fuel
decreases with the loop length. -/
def optAux (P : List Pt) : ℕ → List ℕ → Option (List (List ℕ))
  | 0, _ => none
  | fuel + 1, L =>
    if isConvexLoop (L.map (vAt P)) then some [L]
    else
      chooseMin ((optCands (L.map (vAt P))).filterMap fun c =>
        (optAux P fuel ((L.drop c.1).take (c.2 - c.1 + 1))).bind fun r1 =>
          (optAux P fuel (L.take (c.1 + 1) ++ L.drop c.2)).map fun r2 => r1 ++ r2)

/-- The Keil-Snoeyink optimal partition of the polygon given by the vertex
positions `0, ..., n-1` of `Q`, as the exhaustive minimum over diagonal
splits. -/
def partitionOPTcore (Q : List Pt) : Option (List (List ℕ)) :=
  optAux Q Q.length (List.range Q.length)

/-- Modelled from the spec (4.7/4.5): `PolygonPartition::apply_OPT`:
validate, then run the optimal partitioner; on failure the parts list is
left empty. -/
def apply_OPT (poly : List Pt) : Bool × List (List ℕ) :=
  if validatePoly poly then
    match partitionOPTcore poly with
    | some parts => (true, parts)
    | none => (false, [])
  else (false, [])

/-- Resolution of an index loop into its point sequence. -/
def rpts (points : List Pt) (loop : List ℕ) : List Pt := loop.map (vAt points)

/-- Squared Euclidean distance between two points. -/
def dist2 (a b : Pt) : ℤ := (a.1 - b.1) ^ 2 + (a.2 - b.2) ^ 2

/-- Modelled from the spec (4.6): feasibility of a bridge between vertex
position `hk` of the hole `K` and vertex position `vk` of host loop number
`hi`: the segment must be a valid diagonal per 4.3's test, evaluated
against the whole arrangement: it properly crosses no edge of any current
loop, and its midpoint lies inside the chosen host and outside every
remaining hole. -/
def bridgeOk (points : List Pt) (hosts holes : List (List ℕ)) (K : List ℕ)
    (hk hi vk : ℕ) : Bool :=
  let a := vAt points (K.getD hk 0)
  let b := vAt points ((hosts.getD hi []).getD vk 0)
  let mid : Pt := (a.1 + b.1, a.2 + b.2)
  ((hosts ++ holes).all fun Lp =>
    (List.range Lp.length).all fun e =>
      !(properInter a b (vAt points (Lp.getD e 0))
          (vAt points (Lp.getD ((e + 1) % Lp.length) 0)))) &&
    inPoly mid (doublePoly (rpts points (hosts.getD hi []))) &&
    (holes.all fun K2 => !(inPoly mid (doublePoly (rpts points K2))))

/-- All feasible bridges for the hole `K`, in scan order (hole vertex,
host loop, host vertex). -/
def bridgeCands (points : List Pt) (hosts holes : List (List ℕ))
    (K : List ℕ) : List (ℕ × ℕ × ℕ) :=
  (List.range K.length).flatMap fun hk =>
    (List.range hosts.length).flatMap fun hi =>
      ((List.range (hosts.getD hi []).length).filter fun vk =>
        bridgeOk points hosts holes K hk hi vk).map fun vk => (hk, hi, vk)

/-- Modelled from the spec (4.6): the nearest feasible bridge by Euclidean
distance (deterministic: the first minimum in scan order wins). -/
def bestBridge (points : List Pt) (hosts holes : List (List ℕ))
    (K : List ℕ) : Option (ℕ × ℕ × ℕ) :=
  (bridgeCands points hosts holes K).foldl (fun acc c =>
    let dc := dist2 (vAt points (K.getD c.1 0))
        (vAt points ((hosts.getD c.2.1 []).getD c.2.2 0))
    match acc with
    | none => some c
    | some b =>
      let db := dist2 (vAt points (K.getD b.1 0))
          (vAt points ((hosts.getD b.2.1 []).getD b.2.2 0))
      if dc < db then some c else some b) none

/-- Modelled from the spec (4.6): splicing the hole loop `K` (rotated to
start at its bridge vertex) into the host loop at host position `vk`,
walking the host forward to the bridge vertex, around the full hole, and
back; both bridge endpoints are duplicated. -/
def spliceHole (host K : List ℕ) (hk vk : ℕ) : List ℕ :=
  host.take (vk + 1) ++ K.rotate hk ++ [K.getD hk 0, host.getD vk 0] ++
    host.drop (vk + 1)

/-- Modelled from the spec (4.6): the hole merger: repeatedly bridge the
first remaining hole to its nearest feasible host vertex until no holes
remain; fails when some hole admits no feasible bridge. -/
def mergeHolesAux (points : List Pt) :
    ℕ → List (List ℕ) → List (List ℕ) → Option (List (List ℕ))
  | _, hosts, [] => some hosts
  | 0, _, _ :: _ => none
  | fuel + 1, hosts, K :: rest =>
    (bestBridge points hosts (K :: rest) K).bind fun c =>
      mergeHolesAux points fuel
        (hosts.set c.2.1 (spliceHole (hosts.getD c.2.1 []) K c.1 c.2.2)) rest

/-- The hole merger entry point (`merge_holes`): fuel is the number of
holes, one of which is eliminated per step. -/
def merge_holes (points : List Pt) (polys holes : List (List ℕ)) :
    Option (List (List ℕ)) :=
  mergeHolesAux points holes.length polys holes

/-- No edge of loop `A` properly crosses an edge of loop `B`. -/
def loopsNoCross (points : List Pt) (A B : List ℕ) : Bool :=
  (List.range A.length).all fun e1 =>
    (List.range B.length).all fun e2 =>
      !(properInter (vAt points (A.getD e1 0))
          (vAt points (A.getD ((e1 + 1) % A.length) 0))
          (vAt points (B.getD e2 0))
          (vAt points (B.getD ((e2 + 1) % B.length) 0)))

/-- Modelled from the spec (4.7): validation for `apply`: every index in
range, every non-hole polygon simple and counter-clockwise, every hole
simple and clockwise and nested inside exactly one non-hole polygon, and
no two input loops cross. -/
def validateApply (points : List Pt) (polys holes : List (List ℕ)) : Bool :=
  (polys.all fun B =>
    (B.all fun i => decide (i < points.length)) && validatePoly (rpts points B)) &&
  (holes.all fun K =>
    (K.all fun i => decide (i < points.length)) && isSimplePoly (rpts points K) &&
      decide (area2 (rpts points K) < 0)) &&
  (holes.all fun K =>
    decide ((polys.filter fun B =>
      inPoly (vAt points (K.getD 0 0)) (rpts points B)).length = 1)) &&
  (let loops := polys ++ holes
   (List.range loops.length).all fun i =>
     (List.range loops.length).all fun j =>
       if i < j then loopsNoCross points (loops.getD i []) (loops.getD j [])
       else true)

/-- Run the Hertel-Mehlhorn partitioner on one hole-free boundary (an index
loop into the shared point table), mapping the positional result back to
point-table indices. -/
def runHM (points : List Pt) (B : List ℕ) : Option (List (List ℕ)) :=
  (partitionHMcore (rpts points B)).map fun parts =>
    parts.map fun piece => piece.map fun k => B.getD k 0

/-- Partition every boundary with Hertel-Mehlhorn and concatenate the
results; fail if any boundary fails. -/
def applyParts (points : List Pt) : List (List ℕ) → Option (List (List ℕ))
  | [] => some []
  | B :: rest =>
    (runHM points B).bind fun ps =>
      (applyParts points rest).map fun qs => ps ++ qs

/-- Modelled from the spec (4.7/4.6): `PolygonPartition::apply`: validate,
bridge all holes into simple hole-free boundaries (4.6), then run the
Hertel-Mehlhorn partitioner on each resulting boundary, concatenating the
results; the optimal partitioner is never used.  On failure the parts list
is left empty. -/
def apply (points : List Pt) (polys holes : List (List ℕ)) :
    Bool × List (List ℕ) :=
  if validateApply points polys holes then
    match merge_holes points polys holes with
    | none => (false, [])
    | some boundaries =>
      match applyParts points boundaries with
      | none => (false, [])
      | some parts => (true, parts)
  else (false, [])

/-- Number of reflex vertices (notches): strict right turns of a
counter-clockwise polygon. -/
def reflexCount (P : List Pt) : ℕ :=
  ((List.range P.length).filter fun i =>
    crossTurn (vtx P (i + P.length - 1)) (vtx P i) (vtx P (i + 1)) < 0).length

/-- The L-shaped hexagon of the single-notch scenario: counter-clockwise,
with its only reflex vertex at `(1, 1)`. -/
def Lshape : List Pt := [(0, 0), (2, 0), (2, 1), (1, 1), (1, 2), (0, 2)]

/-- The self-intersecting bowtie quadrilateral, a degenerate input. -/
def bowtie : List Pt := [(0, 0), (2, 2), (2, 0), (0, 2)]

/-- The counter-clockwise unit square of the square scenario. -/
def unitSquare : List Pt := [(0, 0), (1, 0), (1, 1), (0, 1)]

/-- The point table of the square-with-a-square-hole scenario: a
counter-clockwise 4x4 outer square (indices 0-3) and a clockwise 2x2 inner
hole (indices 4-7). -/
def holeSquarePts : List Pt :=
  [(0, 0), (4, 0), (4, 4), (0, 4), (1, 1), (1, 3), (3, 3), (3, 1)]

/-- A fixed initial camera state, used by concrete witnesses. -/
noncomputable def c0 : Camera := ⟨⟨(0, 0, 0), 0⟩, (0, 0, 0), 0, none⟩

/-- Auxiliary: `walk` splits over an append, continuing from the last
vertex of the first part. -/
lemma walk_append (a : Pt) (l m : List Pt) :
    walk a (l ++ m) = walk a l + walk (l.getLastD a) m := by
  induction l generalizing a with
  | nil => simp [walk]
  | cons q t ih =>
    show walk a (q :: (t ++ m)) = walk a (q :: t) + walk ((q :: t).getLastD a) m
    rw [walk, walk, ih, List.getLastD_cons]
    omega

/-- Auxiliary: the shoelace sum is invariant under a single rotation. -/
lemma area2_rotate_single (p : Pt) (t : List Pt) :
    area2 (t ++ [p]) = area2 (p :: t) := by
  cases t with
  | nil => simp [area2, walk, det]
  | cons q s =>
    show area2 (q :: (s ++ [p])) = area2 (p :: q :: s)
    have hlast : (s ++ [p]).getLastD q = p := by
      simp [List.getLastD_eq_getLast?]
    have h1 : walk p [q] = det p q := by simp [walk]
    have h2 : walk p (q :: (s ++ [p])) = det p q + walk q (s ++ [p]) := by rw [walk]
    rw [area2, area2, walk_append, hlast, h1, List.cons_append, h2]
    omega

/-- Auxiliary: the shoelace sum is invariant under rotation. -/
lemma area2_rotate (l : List Pt) (m : ℕ) : area2 (l.rotate m) = area2 l := by
  induction m with
  | zero => simp
  | succ k ih =>
    have h1 : l.rotate (k + 1) = (l.rotate k).rotate 1 := by
      rw [List.rotate_rotate]
    rw [h1]
    cases hr : l.rotate k with
    | nil => simp [hr] at ih ⊢; exact ih
    | cons p t =>
      have : (p :: t).rotate 1 = t ++ [p] := by
        have := List.rotate_cons_succ t p 0
        simpa using this
      rw [this, area2_rotate_single, ← hr, ih]

/-- Auxiliary: the turn cross product as a cyclic sum of determinants. -/
lemma crossTurn_split (a b c : Pt) : crossTurn a b c = det a b + det b c + det c a := by
  simp only [crossTurn, det]
  ring

/-- Auxiliary: the doubled area of a triangle list is the turn cross
product. -/
lemma area2_triangle (a b c : Pt) : area2 [a, b, c] = crossTurn a b c := by
  simp only [area2, walk, det, crossTurn, List.cons_append, List.nil_append]
  ring

/-- Auxiliary: clipping the second vertex of a loop removes exactly the
doubled area of its ear triangle. -/
lemma area2_clip (a b c : Pt) (rest : List Pt) :
    area2 (a :: b :: c :: rest) = crossTurn a b c + area2 (a :: c :: rest) := by
  simp only [area2, walk, List.cons_append, crossTurn, det]
  ring

/-- Auxiliary: the shoelace sum is invariant under swapping the two halves
of a loop. -/
lemma area2_append_comm (u v : List Pt) : area2 (u ++ v) = area2 (v ++ u) := by
  have h : (u ++ v).rotate u.length = v ++ u := by
    rw [List.rotate_eq_drop_append_take (by simp)]
    simp
  rw [← h, area2_rotate]

/-- Auxiliary: `getD` through a rotation. -/
lemma getD_rotate (l : List Pt) (m i : ℕ) (hi : i < l.length) :
    (l.rotate m).getD i (0, 0) = l.getD ((i + m) % l.length) (0, 0) := by
  have hn : 0 < l.length := by omega
  rw [List.getD_eq_getElem _ _ (by simpa using hi),
    List.getD_eq_getElem _ _ (Nat.mod_lt _ hn)]
  exact List.getElem_rotate l m i (by simpa using hi)

/-- Auxiliary: a list of length at least 3 is its first three entries
followed by the rest. -/
lemma cons3_drop (S : List Pt) (h : 3 ≤ S.length) :
    S = S.getD 0 (0, 0) :: S.getD 1 (0, 0) :: S.getD 2 (0, 0) :: S.drop 3 := by
  cases S with
  | nil => simp at h
  | cons a S1 =>
    cases S1 with
    | nil => simp at h
    | cons b S2 =>
      cases S2 with
      | nil => simp at h
      | cons c t => rfl

/-- Auxiliary: erasing position 1 of a list of length at least 3. -/
lemma eraseIdx_one_cons3 (S : List Pt) (h : 3 ≤ S.length) :
    S.eraseIdx 1 = S.getD 0 (0, 0) :: S.getD 2 (0, 0) :: S.drop 3 := by
  conv_lhs => rw [cons3_drop S h]
  rfl

/-- Auxiliary: clipping position 1 of a loop removes exactly the doubled
area of the triangle of its first three vertices. -/
lemma area2_clip_at_one (S : List Pt) (h3 : 3 ≤ S.length) :
    area2 S = crossTurn (S.getD 0 (0, 0)) (S.getD 1 (0, 0)) (S.getD 2 (0, 0))
      + area2 (S.eraseIdx 1) := by
  rw [eraseIdx_one_cons3 S h3]
  conv_lhs => rw [cons3_drop S h3]
  exact area2_clip _ _ _ _

/-- Auxiliary: erasing position 1 of the rotation by `k - 1` has the same
shoelace sum as erasing position `k` (interior case). -/
lemma area2_rotate_eraseIdx_pos (R : List Pt) (k : ℕ) (h1 : 1 ≤ k)
    (hk : k < R.length) :
    area2 ((R.rotate (k - 1)).eraseIdx 1) = area2 (R.eraseIdx k) := by
  have hrot : R.rotate (k - 1) = R.drop (k - 1) ++ R.take (k - 1) :=
    List.rotate_eq_drop_append_take (by omega)
  have hd1 : R.drop (k - 1)
      = R[k - 1] :: R[k] :: R.drop (k + 1) := by
    rw [List.drop_eq_getElem_cons (by omega), show k - 1 + 1 = k by omega,
      List.drop_eq_getElem_cons (by omega)]
  have he1 : (R.rotate (k - 1)).eraseIdx 1
      = (R[k - 1] :: R.drop (k + 1)) ++ R.take (k - 1) := by
    rw [hrot, hd1,
      List.eraseIdx_append_of_lt_length
        (by simp only [List.length_cons]; omega)]
    rfl
  rw [he1, area2_append_comm, List.eraseIdx_eq_take_drop_succ, List.append_cons,
    List.take_concat_get', show k - 1 + 1 = k by omega]

/-- Auxiliary: erasing position 1 of the rotation by `length - 1` has the
same shoelace sum as erasing position 0 (wrap-around case). -/
lemma area2_rotate_eraseIdx_zero (R : List Pt) (h3 : 3 ≤ R.length) :
    area2 ((R.rotate (R.length - 1)).eraseIdx 1) = area2 (R.eraseIdx 0) := by
  obtain ⟨x, xs, hx⟩ : ∃ x xs, R = x :: xs := by
    cases R with
    | nil => simp at h3
    | cons x xs => exact ⟨x, xs, rfl⟩
  subst hx
  have hne : (x :: xs) ≠ [] := by simp
  have hxsne : xs ≠ [] := by
    intro h
    rw [h] at h3
    simp at h3
  have hrot : (x :: xs).rotate ((x :: xs).length - 1)
      = (x :: xs).getLast hne :: (x :: xs).dropLast := by
    rw [List.rotate_eq_drop_append_take (by omega)]
    have h1 : (x :: xs).drop ((x :: xs).length - 1) = [(x :: xs).getLast hne] := by
      have h2 := List.drop_left ((x :: xs).dropLast) [(x :: xs).getLast hne]
      rw [List.dropLast_append_getLast hne, List.length_dropLast] at h2
      exact h2
    rw [h1, ← List.dropLast_eq_take]
    rfl
  have hdl : (x :: xs).dropLast = x :: xs.dropLast :=
    List.dropLast_cons_of_ne_nil hxsne
  have he : ((x :: xs).rotate ((x :: xs).length - 1)).eraseIdx 1
      = (x :: xs).getLast hne :: xs.dropLast := by
    rw [hrot, hdl]
    rfl
  have hgl : (x :: xs).getLast hne = xs.getLast hxsne := List.getLast_cons hxsne
  rw [he, hgl, ← area2_rotate_single, List.dropLast_append_getLast hxsne]
  rfl

/-- Auxiliary: erasing vertex `k` of a cyclic loop removes exactly the
doubled area of the ear triangle formed with its two cyclic neighbours. -/
lemma area2_eraseIdx (R : List Pt) (k : ℕ) (h3 : 3 ≤ R.length) (hk : k < R.length) :
    area2 R = crossTurn (R.getD ((k + R.length - 1) % R.length) (0, 0))
        (R.getD k (0, 0)) (R.getD ((k + 1) % R.length) (0, 0))
      + area2 (R.eraseIdx k) := by
  have hn : 0 < R.length := by omega
  rcases Nat.eq_zero_or_pos k with h0 | h1
  · subst h0
    have e1 : (0 + R.length - 1) % R.length = R.length - 1 := by
      rw [show 0 + R.length - 1 = R.length - 1 by omega]
      exact Nat.mod_eq_of_lt (by omega)
    have hlenS : (R.rotate (R.length - 1)).length = R.length := by simp
    have hclip := area2_clip_at_one (R.rotate (R.length - 1)) (by simpa using h3)
    have hg0 : (R.rotate (R.length - 1)).getD 0 (0, 0) = R.getD (R.length - 1) (0, 0) := by
      rw [getD_rotate R _ 0 (by omega)]
      congr 1
      rw [Nat.zero_add]
      exact Nat.mod_eq_of_lt (by omega)
    have hg1 : (R.rotate (R.length - 1)).getD 1 (0, 0) = R.getD 0 (0, 0) := by
      rw [getD_rotate R _ 1 (by omega), show 1 + (R.length - 1) = R.length by omega,
        Nat.mod_self]
    have hg2 : (R.rotate (R.length - 1)).getD 2 (0, 0) = R.getD ((0 + 1) % R.length) (0, 0) := by
      rw [getD_rotate R _ 2 (by omega), show 2 + (R.length - 1) = 1 + R.length by omega,
        Nat.add_mod_right]
    rw [e1, ← hg0, ← hg1, ← hg2, ← area2_rotate_eraseIdx_zero R h3,
      ← hclip, area2_rotate]
  · have e1 : (k + R.length - 1) % R.length = k - 1 := by
      rw [show k + R.length - 1 = (k - 1) + R.length by omega, Nat.add_mod_right]
      exact Nat.mod_eq_of_lt (by omega)
    have hlenS : (R.rotate (k - 1)).length = R.length := by simp
    have hclip := area2_clip_at_one (R.rotate (k - 1)) (by simpa using h3)
    have hg0 : (R.rotate (k - 1)).getD 0 (0, 0) = R.getD (k - 1) (0, 0) := by
      rw [getD_rotate R _ 0 (by omega)]
      congr 1
      rw [Nat.zero_add]
      exact Nat.mod_eq_of_lt (by omega)
    have hg1 : (R.rotate (k - 1)).getD 1 (0, 0) = R.getD k (0, 0) := by
      rw [getD_rotate R _ 1 (by omega), show 1 + (k - 1) = k by omega]
      congr 1
      exact Nat.mod_eq_of_lt (by omega)
    have hg2 : (R.rotate (k - 1)).getD 2 (0, 0) = R.getD ((k + 1) % R.length) (0, 0) := by
      rw [getD_rotate R _ 2 (by omega), show 2 + (k - 1) = k + 1 by omega]
    rw [e1, ← hg0, ← hg1, ← hg2, ← area2_rotate_eraseIdx_pos R k h1 hk,
      ← hclip, area2_rotate]

/-- Auxiliary: `getD` through the resolution of an index loop. -/
lemma getD_rpts (Q : List Pt) (rem : List ℕ) (i : ℕ) (hi : i < rem.length) :
    (rpts Q rem).getD i (0, 0) = vAt Q (rem.getD i 0) := by
  rw [List.getD_eq_getElem _ _ (by simpa [rpts] using hi),
    List.getD_eq_getElem _ _ hi]
  simp [rpts]

/-- Auxiliary: resolution commutes with `eraseIdx`. -/
lemma rpts_eraseIdx (Q : List Pt) (l : List ℕ) (k : ℕ) :
    rpts Q (l.eraseIdx k) = (rpts Q l).eraseIdx k := by
  simp only [rpts, List.eraseIdx_eq_take_drop_succ, List.map_append, List.map_take,
    List.map_drop]

/-- Auxiliary: the sum of the doubled areas of the triangles produced by
the ear-clipping triangulator equals the doubled area of the input loop. -/
lemma triAux_area (Q : List Pt) :
    ∀ (fuel : ℕ) (rem : List ℕ) (tris : List (List ℕ)),
      triAux Q fuel rem = some tris →
      (tris.map fun t => area2 (rpts Q t)).sum = area2 (rpts Q rem) := by
  intro fuel
  induction fuel with
  | zero =>
    intro rem tris h
    exact absurd h (by simp [triAux])
  | succ fuel ih =>
    intro rem tris h
    rw [triAux] at h
    by_cases hlt : rem.length < 3
    · rw [if_pos hlt] at h
      exact absurd h (by simp)
    · rw [if_neg hlt] at h
      by_cases heq : rem.length = 3
      · rw [if_pos heq] at h
        have hht : [rem] = tris := by simpa using h
        subst hht
        simp
      · rw [if_neg heq] at h
        rw [Option.bind_eq_some] at h
        obtain ⟨k, hf, h2⟩ := h
        rw [Option.map_eq_some'] at h2
        obtain ⟨rest, ht, rfl⟩ := h2
        have hk : k < rem.length := by
          have hmem := List.mem_of_find?_eq_some hf
          simpa using hmem
        have h3 : 3 ≤ rem.length := by omega
        have hR3 : 3 ≤ (rpts Q rem).length := by simpa [rpts] using h3
        have hRk : k < (rpts Q rem).length := by simpa [rpts] using hk
        have harea := area2_eraseIdx (rpts Q rem) k hR3 hRk
        have hlen : (rpts Q rem).length = rem.length := by simp [rpts]
        have hprev : (rpts Q rem).getD
              ((k + (rpts Q rem).length - 1) % (rpts Q rem).length) (0, 0)
            = vAt Q (rem.getD ((k + rem.length - 1) % rem.length) 0) := by
          rw [hlen]
          exact getD_rpts Q rem _ (Nat.mod_lt _ (by omega))
        have hv : (rpts Q rem).getD k (0, 0) = vAt Q (rem.getD k 0) :=
          getD_rpts Q rem k hk
        have hnext : (rpts Q rem).getD ((k + 1) % (rpts Q rem).length) (0, 0)
            = vAt Q (rem.getD ((k + 1) % rem.length) 0) := by
          rw [hlen]
          exact getD_rpts Q rem _ (Nat.mod_lt _ (by omega))
        rw [hprev, hv, hnext, ← rpts_eraseIdx] at harea
        rw [List.map_cons, List.sum_cons, ih _ _ ht, harea]
        congr 1
        exact area2_triangle _ _ _

/-- Auxiliary: the identity index loop resolves to the point list itself. -/
lemma rpts_range (Q : List Pt) : rpts Q (List.range Q.length) = Q := by
  apply List.ext_getElem
  · simp [rpts]
  · intro i h1 h2
    simp [rpts, vAt]
    rw [List.getElem?_eq_getElem h2]
    rfl

/-- Auxiliary: every triangle emitted by the triangulator has exactly 3
vertices. -/
lemma triAux_len3 (Q : List Pt) :
    ∀ (fuel : ℕ) (rem : List ℕ) (tris : List (List ℕ)),
      triAux Q fuel rem = some tris → ∀ t ∈ tris, t.length = 3 := by
  intro fuel
  induction fuel with
  | zero =>
    intro rem tris h
    exact absurd h (by simp [triAux])
  | succ fuel ih =>
    intro rem tris h
    rw [triAux] at h
    by_cases hlt : rem.length < 3
    · rw [if_pos hlt] at h
      exact absurd h (by simp)
    · rw [if_neg hlt] at h
      by_cases heq : rem.length = 3
      · rw [if_pos heq] at h
        have hht : [rem] = tris := by simpa using h
        subst hht
        intro t htm
        rw [List.mem_singleton.mp htm]
        exact heq
      · rw [if_neg heq] at h
        rw [Option.bind_eq_some] at h
        obtain ⟨k, hf, h2⟩ := h
        rw [Option.map_eq_some'] at h2
        obtain ⟨rest, ht, rfl⟩ := h2
        intro t htm
        rcases List.mem_cons.mp htm with rfl | htm2
        · rfl
        · exact ih _ _ ht t htm2

/-- Auxiliary: `getD` through `rotate` for index lists. -/
lemma getD_rotate_nat (l : List ℕ) (m i : ℕ) (hi : i < l.length) :
    (l.rotate m).getD i 0 = l.getD ((i + m) % l.length) 0 := by
  have hn : 0 < l.length := by omega
  rw [List.getD_eq_getElem _ _ (by simpa using hi),
    List.getD_eq_getElem _ _ (Nat.mod_lt _ hn)]
  exact List.getElem_rotate l m i (by simpa using hi)

/-- Auxiliary: the witness index of a directed edge in a loop. -/
lemma hasDirEdge_spec (p : List ℕ) (a b : ℕ) (h : hasDirEdge p a b = true) :
    edgeStart p a b < p.length ∧ p.getD (edgeStart p a b) 0 = a ∧
      p.getD ((edgeStart p a b + 1) % p.length) 0 = b := by
  unfold hasDirEdge at h
  rw [List.any_eq_true] at h
  obtain ⟨k, hk, hpk⟩ := h
  have hex : ∃ x ∈ List.range p.length,
      (decide (p.getD x 0 = a) && decide (p.getD ((x + 1) % p.length) 0 = b)) = true :=
    ⟨k, hk, hpk⟩
  have hlt := List.findIdx_lt_length_of_exists hex
  have hsat := List.findIdx_getElem (w := hlt)
  rw [List.getElem_range] at hsat
  simp only [Bool.and_eq_true, decide_eq_true_eq] at hsat
  unfold edgeStart
  exact ⟨by simpa using hlt, hsat.1, hsat.2⟩

/-- Auxiliary: a list of length at least 2 is its head, its middle, and its
last entry. -/
lemma head_last_decomp (l : List ℕ) (h2 : 2 ≤ l.length) :
    l = l.getD 0 0 :: (l.drop 1).dropLast ++ [l.getD (l.length - 1) 0] := by
  cases l with
  | nil => simp at h2
  | cons x t =>
    have htne : t ≠ [] := by
      intro h
      rw [h] at h2
      simp at h2
    have hpos : 0 < t.length := List.length_pos.mpr htne
    have hlast : (x :: t).getD ((x :: t).length - 1) 0 = t.getLast htne := by
      rw [show (x :: t).length - 1 = (t.length - 1) + 1 by
        simp only [List.length_cons]
        omega]
      rw [List.getD_cons_succ]
      rw [List.getD_eq_getElem _ _ (by omega)]
      exact (List.getLast_eq_getElem t htne).symm
    rw [hlast]
    show x :: t = x :: (t.dropLast ++ [t.getLast htne])
    rw [List.dropLast_append_getLast htne]

/-- Auxiliary: rotating a loop onto one of its directed edges puts the edge
target first and the edge source last. -/
lemma rotEdge_decomp (p : List ℕ) (a b : ℕ) (h : hasDirEdge p a b = true)
    (h3 : 3 ≤ p.length) :
    ∃ mid : List ℕ, rotEdge p a b = b :: mid ++ [a] ∧
      (rotEdge p a b).length = p.length := by
  obtain ⟨hk, ha, hb⟩ := hasDirEdge_spec p a b h
  have hn : 0 < p.length := by omega
  have hlen : (rotEdge p a b).length = p.length := by simp [rotEdge]
  have hhead : (rotEdge p a b).getD 0 0 = b := by
    unfold rotEdge
    rw [getD_rotate_nat p _ 0 (by omega), Nat.zero_add,
      Nat.mod_eq_of_lt (Nat.mod_lt _ hn)]
    exact hb
  have hlast : (rotEdge p a b).getD ((rotEdge p a b).length - 1) 0 = a := by
    unfold rotEdge
    rw [show (p.rotate ((edgeStart p a b + 1) % p.length)).length - 1
        = p.length - 1 by simp]
    rw [getD_rotate_nat p _ (p.length - 1) (by omega)]
    by_cases hk1 : edgeStart p a b + 1 < p.length
    · rw [Nat.mod_eq_of_lt hk1,
        show p.length - 1 + (edgeStart p a b + 1) = edgeStart p a b + p.length by omega,
        Nat.add_mod_right, Nat.mod_eq_of_lt hk]
      exact ha
    · have hk2 : edgeStart p a b + 1 = p.length := by omega
      rw [hk2, Nat.mod_self, Nat.add_zero, Nat.mod_eq_of_lt (by omega),
        show p.length - 1 = edgeStart p a b by omega]
      exact ha
  refine ⟨((rotEdge p a b).drop 1).dropLast, ?_, hlen⟩
  have hd := head_last_decomp (rotEdge p a b) (by omega)
  rw [hhead, hlast] at hd
  exact hd

/-- Auxiliary: the shoelace sum of two loops glued along a shared edge
(`a -> b` in one, `b -> a` in the other, both removed) adds up. -/
lemma area2_merge_append (b a : Pt) (mid ys : List Pt) :
    area2 ((b :: mid ++ [a]) ++ ys)
      = area2 (b :: mid ++ [a]) + area2 (a :: ys ++ [b]) := by
  have hl1 : (mid ++ [a]).getLastD b = a := by simp [List.getLastD_eq_getLast?]
  have hl2 : (ys ++ [b]).getLastD a = b := by simp [List.getLastD_eq_getLast?]
  have e1 : area2 ((b :: mid ++ [a]) ++ ys) = walk b ((mid ++ [a]) ++ (ys ++ [b])) := by
    show area2 (b :: ((mid ++ [a]) ++ ys)) = _
    show walk b (((mid ++ [a]) ++ ys) ++ [b]) = _
    congr 1
    simp
  have e2 : area2 (b :: mid ++ [a]) = walk b ((mid ++ [a]) ++ [b]) := rfl
  have e3 : area2 (a :: ys ++ [b]) = walk a ((ys ++ [b]) ++ [a]) := rfl
  have w1 : walk b ((mid ++ [a]) ++ (ys ++ [b]))
      = walk b (mid ++ [a]) + walk a (ys ++ [b]) := by
    rw [walk_append, hl1]
  have w2 : walk b ((mid ++ [a]) ++ [b]) = walk b (mid ++ [a]) + walk a [b] := by
    rw [walk_append, hl1]
  have w3 : walk a ((ys ++ [b]) ++ [a]) = walk a (ys ++ [b]) + walk b [a] := by
    rw [walk_append, hl2]
  rw [e1, e2, e3, w1, w2, w3]
  have hz : walk a [b] + walk b [a] = 0 := by
    simp only [walk, det]
    ring
  omega

/-- Auxiliary: resolution commutes with rotation. -/
lemma rpts_rotate (Q : List Pt) (l : List ℕ) (m : ℕ) :
    rpts Q (l.rotate m) = (rpts Q l).rotate m := by
  simp [rpts, List.map_rotate]

/-- Auxiliary: merging two loops along their shared diagonal adds their
doubled areas. -/
lemma mergeLoops_area (Q : List Pt) (X Y : List ℕ) (a b : ℕ)
    (hX : hasDirEdge X a b = true) (hY : hasDirEdge Y b a = true)
    (hX3 : 3 ≤ X.length) (hY3 : 3 ≤ Y.length) :
    area2 (rpts Q (mergeLoops X Y a b)) = area2 (rpts Q X) + area2 (rpts Q Y) := by
  obtain ⟨midX, hXdec, hXlen⟩ := rotEdge_decomp X a b hX hX3
  obtain ⟨midY, hYdec, hYlen⟩ := rotEdge_decomp Y b a hY hY3
  unfold mergeLoops
  rw [hXdec, hYdec]
  rw [show ((a :: midY ++ [b]).drop 1).dropLast = midY by simp]
  have h1 : rpts Q ((b :: midX ++ [a]) ++ midY)
      = (vAt Q b :: rpts Q midX ++ [vAt Q a]) ++ rpts Q midY := by
    simp [rpts]
  rw [h1, area2_merge_append]
  congr 1
  · have h2 : vAt Q b :: rpts Q midX ++ [vAt Q a] = rpts Q (b :: midX ++ [a]) := by
      simp [rpts]
    rw [h2, ← hXdec]
    unfold rotEdge
    rw [rpts_rotate, area2_rotate]
  · have h3 : vAt Q a :: rpts Q midY ++ [vAt Q b] = rpts Q (a :: midY ++ [b]) := by
      simp [rpts]
    rw [h3, ← hYdec]
    unfold rotEdge
    rw [rpts_rotate, area2_rotate]

/-- Auxiliary: a list is a permutation of any member consed onto its
erasure, for a lawful boolean equality. -/
lemma perm_cons_erase_beq {α : Type} [BEq α] [LawfulBEq α] {a : α} {l : List α}
    (h : a ∈ l) : l.Perm (a :: l.erase a) := by
  induction l with
  | nil => cases h
  | cons x xs ih =>
    by_cases hax : x = a
    · subst hax
      rw [List.erase_cons_head]
    · rw [List.erase_cons_tail (by simpa using hax)]
      have hmem : a ∈ xs := by
        rcases List.mem_cons.mp h with h1 | h1
        · exact absurd h1.symm hax
        · exact h1
      exact ((ih hmem).cons x).trans (List.Perm.swap a x _)

/-- Auxiliary: one Hertel-Mehlhorn merge step preserves the total doubled
area and the minimum loop length. -/
lemma mergeStep_invariant (Q : List Pt) (pieces : List (List ℕ)) (d : ℕ × ℕ)
    (hmin : ∀ p ∈ pieces, 3 ≤ p.length) :
    ((mergeStep Q pieces d).map fun p => area2 (rpts Q p)).sum
        = (pieces.map fun p => area2 (rpts Q p)).sum ∧
      ∀ p ∈ mergeStep Q pieces d, 3 ≤ p.length := by
  unfold mergeStep
  cases hfX : pieces.find? (fun p => hasDirEdge p d.1 d.2) with
  | none =>
    simp only [Option.none_bind, Option.getD_none]
    exact ⟨trivial, hmin⟩
  | some X =>
    cases hfY : pieces.find? (fun p => hasDirEdge p d.2 d.1) with
    | none =>
      simp only [Option.some_bind, Option.map_none', Option.getD_none]
      exact ⟨trivial, hmin⟩
    | some Y =>
      simp only [Option.some_bind, Option.map_some', Option.getD_some]
      by_cases hXY : X = Y
      · rw [if_pos hXY]
        exact ⟨rfl, hmin⟩
      · rw [if_neg hXY]
        by_cases hok : mergeOk Q X Y d.1 d.2
        · rw [if_pos hok]
          have hXmem := List.mem_of_find?_eq_some hfX
          have hYmem := List.mem_of_find?_eq_some hfY
          have hXedge : hasDirEdge X d.1 d.2 = true := by
            simpa using List.find?_some hfX
          have hYedge : hasDirEdge Y d.2 d.1 = true := by
            simpa using List.find?_some hfY
          have hX3 := hmin X hXmem
          have hY3 := hmin Y hYmem
          have hYmem2 : Y ∈ pieces.erase X :=
            (List.mem_erase_of_ne fun h => hXY h.symm).mpr hYmem
          have hperm : pieces.Perm (X :: pieces.erase X) :=
            perm_cons_erase_beq hXmem
          have hperm2 : (pieces.erase X).Perm (Y :: (pieces.erase X).erase Y) :=
            perm_cons_erase_beq hYmem2
          constructor
          · have hs1 : (pieces.map fun p => area2 (rpts Q p)).sum
                = area2 (rpts Q X) + ((pieces.erase X).map fun p => area2 (rpts Q p)).sum := by
              rw [(hperm.map fun p => area2 (rpts Q p)).sum_eq]
              simp
            have hs2 : ((pieces.erase X).map fun p => area2 (rpts Q p)).sum
                = area2 (rpts Q Y)
                  + (((pieces.erase X).erase Y).map fun p => area2 (rpts Q p)).sum := by
              rw [(hperm2.map fun p => area2 (rpts Q p)).sum_eq]
              simp
            rw [List.map_cons, List.sum_cons,
              mergeLoops_area Q X Y d.1 d.2 hXedge hYedge hX3 hY3, hs1, hs2]
            ring
          · intro p hp
            rcases List.mem_cons.mp hp with rfl | hp2
            · have hlen : (mergeLoops X Y d.1 d.2).length
                  = X.length + (Y.length - 1 - 1) := by
                simp [mergeLoops, rotEdge]
              omega
            · exact hmin p (List.erase_subset _ _ (List.erase_subset _ _ hp2))
        · rw [if_neg hok]
          exact ⟨rfl, hmin⟩

/-- Auxiliary: the Hertel-Mehlhorn merge loop preserves the total doubled
area of the pieces. -/
lemma foldl_mergeStep_area (Q : List Pt) (diags : List (ℕ × ℕ)) :
    ∀ pieces, (∀ p ∈ pieces, 3 ≤ p.length) →
      ((diags.foldl (mergeStep Q) pieces).map fun p => area2 (rpts Q p)).sum
        = (pieces.map fun p => area2 (rpts Q p)).sum := by
  induction diags with
  | nil =>
    intro pieces _
    rfl
  | cons d ds ih =>
    intro pieces h
    rw [List.foldl_cons]
    have hstep := mergeStep_invariant Q pieces d h
    rw [ih _ hstep.2, hstep.1]

/-- Auxiliary: the Hertel-Mehlhorn partitioner preserves the doubled area of
its input polygon. -/
lemma partitionHMcore_area (Q : List Pt) (parts : List (List ℕ))
    (h : partitionHMcore Q = some parts) :
    (parts.map fun p => area2 (rpts Q p)).sum = area2 Q := by
  unfold partitionHMcore at h
  rw [Option.map_eq_some'] at h
  obtain ⟨tris, ht, rfl⟩ := h
  unfold triangulate at ht
  have htri3 : ∀ t ∈ tris, 3 ≤ t.length := by
    intro t htm
    rw [triAux_len3 Q _ _ tris ht t htm]
  rw [foldl_mergeStep_area Q _ tris htri3, triAux_area Q _ _ tris ht, rpts_range]

/-- Auxiliary: the split identity at the head of a loop: a diagonal from
the head `x` to an interior vertex `y` cuts the shoelace sum in two. -/
lemma area2_split_head (x y : Pt) (B T : List Pt) :
    area2 (x :: (B ++ (y :: T)))
      = area2 (x :: (B ++ [y])) + area2 (x :: (y :: T)) := by
  have hly : (B ++ [y]).getLastD x = y := by simp [List.getLastD_eq_getLast?]
  have e1 : area2 (x :: (B ++ (y :: T))) = walk x ((B ++ [y]) ++ (T ++ [x])) := by
    show walk x ((B ++ (y :: T)) ++ [x]) = _
    congr 1
    simp
  have e2 : area2 (x :: (B ++ [y])) = walk x ((B ++ [y]) ++ [x]) := rfl
  have e3 : area2 (x :: (y :: T)) = det x y + walk y (T ++ [x]) := rfl
  have w1 : walk x ((B ++ [y]) ++ (T ++ [x]))
      = walk x (B ++ [y]) + walk y (T ++ [x]) := by
    rw [walk_append, hly]
  have w2 : walk x ((B ++ [y]) ++ [x]) = walk x (B ++ [y]) + walk y [x] := by
    rw [walk_append, hly]
  rw [e1, e2, e3, w1, w2]
  have hz : walk y [x] + det x y = 0 := by
    simp only [walk, det]
    ring
  omega

/-- Auxiliary: the split identity in the middle of a loop. -/
lemma area2_split_core (x y : Pt) (A B C : List Pt) :
    area2 (A ++ (x :: (B ++ (y :: C))))
      = area2 (x :: (B ++ [y])) + area2 (A ++ (x :: (y :: C))) := by
  have hl1 : (x :: (B ++ (y :: C))) ++ A = x :: (B ++ (y :: (C ++ A))) := by simp
  have c1 : area2 (A ++ (x :: (B ++ (y :: C))))
      = area2 (x :: (B ++ (y :: (C ++ A)))) := by
    rw [area2_append_comm A (x :: (B ++ (y :: C))), hl1]
  have hl2 : (x :: (y :: C)) ++ A = x :: (y :: (C ++ A)) := by simp
  have c2 : area2 (A ++ (x :: (y :: C))) = area2 (x :: (y :: (C ++ A))) := by
    rw [area2_append_comm A (x :: (y :: C)), hl2]
  rw [c1, c2]
  exact area2_split_head x y B (C ++ A)

/-- Auxiliary: cutting a loop along the diagonal from position `p` to
position `q` splits the shoelace sum. -/
lemma area2_split (R : List Pt) (p q : ℕ) (hpq : p < q) (hq : q < R.length) :
    area2 R = area2 ((R.drop p).take (q - p + 1))
      + area2 (R.take (p + 1) ++ R.drop q) := by
  have hp : p < R.length := by omega
  have f2 : R.drop p = R[p] :: R.drop (p + 1) :=
    List.drop_eq_getElem_cons hp
  have f4 : R.drop q = R[q] :: R.drop (q + 1) :=
    List.drop_eq_getElem_cons hq
  have f3 : R.drop (p + 1)
      = (R.drop (p + 1)).take (q - p - 1) ++ R.drop q := by
    have h1 : (R.drop (p + 1)).drop (q - p - 1) = R.drop q := by
      rw [List.drop_drop]
      congr 1
      omega
    conv_lhs => rw [← List.take_append_drop (q - p - 1) (R.drop (p + 1))]
    rw [h1]
  have f5 : (R.drop (p + 1)).take (q - p)
      = (R.drop (p + 1)).take (q - p - 1) ++ [R[q]] := by
    have hlt : q - p - 1 < (R.drop (p + 1)).length := by
      rw [List.length_drop]
      omega
    have hcat := List.take_concat_get' (R.drop (p + 1)) (q - p - 1) hlt
    rw [show q - p - 1 + 1 = q - p by omega] at hcat
    rw [← hcat]
    congr 1
    rw [List.getElem_drop]
    simp only [show p + 1 + (q - p - 1) = q from by omega]
  have hpiece1 : (R.drop p).take (q - p + 1)
      = R[p] :: ((R.drop (p + 1)).take (q - p - 1) ++ [R[q]]) := by
    rw [f2, show q - p + 1 = (q - p) + 1 by omega, List.take_succ_cons, f5]
  have hpiece2 : R.take (p + 1) = R.take p ++ [R[p]] :=
    (List.take_concat_get' R p hp).symm
  have hR : R = R.take p ++ (R[p] :: ((R.drop (p + 1)).take (q - p - 1)
      ++ (R[q] :: R.drop (q + 1)))) := by
    conv_lhs => rw [← List.take_append_drop p R, f2, f3, f4]
  have hstep1 : area2 R
      = area2 (R[p] :: ((R.drop (p + 1)).take (q - p - 1) ++ [R[q]]))
        + area2 (R.take p ++ (R[p] :: (R[q] :: R.drop (q + 1)))) := by
    conv_lhs => rw [hR]
    exact area2_split_core (R[p]) (R[q]) (R.take p)
      ((R.drop (p + 1)).take (q - p - 1)) (R.drop (q + 1))
  rw [hpiece1, hpiece2, hstep1, f4]
  have hfin : (R.take p ++ [R[p]]) ++ (R[q] :: R.drop (q + 1))
      = R.take p ++ (R[p] :: (R[q] :: R.drop (q + 1))) := by
    simp only [List.append_assoc, List.singleton_append]
  rw [hfin]

lemma foldl_min_mem :
    ∀ (l : List (List (List ℕ))) (acc : Option (List (List ℕ)))
      (r : List (List ℕ)),
      l.foldl (fun acc r =>
        match acc with
        | none => some r
        | some b => if r.length < b.length then some r else some b) acc = some r →
      acc = some r ∨ r ∈ l := by
  intro l
  induction l with
  | nil =>
    intro acc r h
    exact Or.inl h
  | cons x xs ih =>
    intro acc r h
    rw [List.foldl_cons] at h
    rcases ih _ r h with h3 | h3
    · cases acc with
      | none =>
        have hx : x = r := by injection h3
        exact Or.inr (by rw [hx]; exact List.mem_cons_self r xs)
      | some b =>
        by_cases hlt : x.length < b.length
        · rw [show (match some b with
              | none => some x
              | some b => if x.length < b.length then some x else some b)
              = if x.length < b.length then some x else some b from rfl,
            if_pos hlt] at h3
          have hx : x = r := by injection h3
          exact Or.inr (by rw [hx]; exact List.mem_cons_self r xs)
        · rw [show (match some b with
              | none => some x
              | some b => if x.length < b.length then some x else some b)
              = if x.length < b.length then some x else some b from rfl,
            if_neg hlt] at h3
          exact Or.inl h3
    · exact Or.inr (List.mem_cons_of_mem x h3)

/-- Auxiliary: the minimum-piece choice returns a member of its candidate
list. -/
lemma chooseMin_mem (l : List (List (List ℕ))) (r : List (List ℕ))
    (h : chooseMin l = some r) : r ∈ l := by
  unfold chooseMin at h
  rcases foldl_min_mem l none r h with h3 | h3
  · exact absurd h3 (by simp)
  · exact h3

/-- Auxiliary: the exhaustive optimal partitioner preserves the doubled
area of its input loop. -/
lemma optAux_area (P : List Pt) :
    ∀ (fuel : ℕ) (L : List ℕ) (parts : List (List ℕ)),
      optAux P fuel L = some parts →
      (parts.map fun p => area2 (rpts P p)).sum = area2 (rpts P L) := by
  intro fuel
  induction fuel with
  | zero =>
    intro L parts h
    exact absurd h (by simp [optAux])
  | succ fuel ih =>
    intro L parts h
    rw [optAux] at h
    by_cases hcv : isConvexLoop (L.map (vAt P)) = true
    · rw [if_pos hcv] at h
      have hht : [L] = parts := by simpa using h
      subst hht
      simp [rpts]
    · rw [if_neg hcv] at h
      have hmem := chooseMin_mem _ _ h
      rw [List.mem_filterMap] at hmem
      obtain ⟨c, hc, hres⟩ := hmem
      rw [Option.bind_eq_some] at hres
      obtain ⟨r1, h1, hres2⟩ := hres
      rw [Option.map_eq_some'] at hres2
      obtain ⟨r2, h2, rfl⟩ := hres2
      have hcfacts : c.1 < c.2 ∧ c.2 < L.length := by
        unfold optCands at hc
        rw [List.mem_flatMap] at hc
        obtain ⟨p, hp, hc2⟩ := hc
        rw [List.mem_map] at hc2
        obtain ⟨q, hq, rfl⟩ := hc2
        rw [List.mem_filter] at hq
        obtain ⟨hqr, hcond⟩ := hq
        simp only [Bool.and_eq_true, decide_eq_true_eq] at hcond
        constructor
        · exact hcond.1.1
        · have := List.mem_range.mp hqr
          simpa [rpts] using this
      have e1 : rpts P ((L.drop c.1).take (c.2 - c.1 + 1))
          = ((rpts P L).drop c.1).take (c.2 - c.1 + 1) := by
        simp [rpts, List.map_take, List.map_drop]
      have e2 : rpts P (L.take (c.1 + 1) ++ L.drop c.2)
          = (rpts P L).take (c.1 + 1) ++ (rpts P L).drop c.2 := by
        simp [rpts, List.map_take, List.map_drop]
      rw [List.map_append, List.sum_append, ih _ _ h1, ih _ _ h2, e1, e2]
      exact (area2_split (rpts P L) c.1 c.2 hcfacts.1
        (by simpa [rpts] using hcfacts.2)).symm

/-- Auxiliary: the optimal partitioner preserves the doubled area of its
input polygon. -/
lemma partitionOPTcore_area (Q : List Pt) (parts : List (List ℕ))
    (h : partitionOPTcore Q = some parts) :
    (parts.map fun p => area2 (rpts Q p)).sum = area2 Q := by
  unfold partitionOPTcore at h
  rw [optAux_area Q _ _ parts h, rpts_range]

/-- Auxiliary: the shoelace identity of hole splicing at the head: the
bridge edges `v -> h` and `h -> v` cancel, leaving the sum of the two
loops. -/
lemma area2_splice_head (ks T : List Pt) (v h : Pt) :
    area2 (v :: (h :: (ks ++ (h :: (v :: T)))))
      = area2 (v :: T) + area2 (h :: ks) := by
  have e1 : area2 (v :: (h :: (ks ++ (h :: (v :: T)))))
      = det v h + walk h ((ks ++ [h]) ++ ((v :: T) ++ [v])) := by
    show det v h + walk h ((ks ++ (h :: (v :: T))) ++ [v]) = _
    congr 1
    congr 1
    simp
  have w1 : walk h ((ks ++ [h]) ++ ((v :: T) ++ [v]))
      = walk h (ks ++ [h]) + walk h ((v :: T) ++ [v]) := by
    rw [walk_append, show (ks ++ [h]).getLastD h = h by
      simp [List.getLastD_eq_getLast?]]
  have e2 : walk h ((v :: T) ++ [v]) = det h v + walk v (T ++ [v]) := rfl
  rw [e1, w1, e2]
  have hz : det v h + det h v = 0 := by
    unfold det
    ring
  show _ = walk v (T ++ [v]) + walk h (ks ++ [h])
  omega

/-- Auxiliary: the shoelace identity of hole splicing in full generality. -/
lemma area2_splice_full (A C ks : List Pt) (v h : Pt) :
    area2 ((A ++ [v]) ++ ((h :: ks) ++ ([h, v] ++ C)))
      = area2 ((A ++ [v]) ++ C) + area2 (h :: ks) := by
  have hl1 : (A ++ [v]) ++ ((h :: ks) ++ ([h, v] ++ C))
      = A ++ (v :: ((h :: ks) ++ ([h, v] ++ C))) := by simp
  have hl2 : (v :: ((h :: ks) ++ ([h, v] ++ C))) ++ A
      = v :: (h :: (ks ++ (h :: (v :: (C ++ A))))) := by simp
  have c1 : area2 ((A ++ [v]) ++ ((h :: ks) ++ ([h, v] ++ C)))
      = area2 (v :: (h :: (ks ++ (h :: (v :: (C ++ A)))))) := by
    rw [hl1, area2_append_comm A _, hl2]
  have hl3 : (A ++ [v]) ++ C = A ++ (v :: C) := by simp
  have hl4 : (v :: C) ++ A = v :: (C ++ A) := by simp
  have c2 : area2 ((A ++ [v]) ++ C) = area2 (v :: (C ++ A)) := by
    rw [hl3, area2_append_comm A _, hl4]
  rw [c1, c2]
  exact area2_splice_head ks (C ++ A) v h

/-- Auxiliary: splicing a hole into a host loop adds the doubled signed
areas (the hole is clockwise, so its area is subtracted in absolute
terms). -/
lemma spliceHole_area (points : List Pt) (host K : List ℕ) (hk vk : ℕ)
    (hhk : hk < K.length) (hvk : vk < host.length) :
    area2 (rpts points (spliceHole host K hk vk))
      = area2 (rpts points host) + area2 (rpts points K) := by
  have htake : host.take (vk + 1) = host.take vk ++ [host.getD vk 0] := by
    rw [List.getD_eq_getElem _ _ hvk]
    exact (List.take_concat_get' host vk hvk).symm
  have hKne : K.rotate hk ≠ [] := by
    intro hc
    have : (K.rotate hk).length = 0 := by rw [hc]; rfl
    rw [List.length_rotate] at this
    omega
  obtain ⟨a0, t0, hrot⟩ : ∃ a0 t0, K.rotate hk = a0 :: t0 := by
    cases hcase : K.rotate hk with
    | nil => exact absurd hcase hKne
    | cons a0 t0 => exact ⟨a0, t0, rfl⟩
  have ha0 : a0 = K.getD hk 0 := by
    have h1 : (K.rotate hk).getD 0 0 = K.getD ((0 + hk) % K.length) 0 :=
      getD_rotate_nat K hk 0 (by omega)
    rw [hrot] at h1
    simp only [List.getD_cons_zero] at h1
    rw [h1, Nat.zero_add, Nat.mod_eq_of_lt hhk]
  have hshape : spliceHole host K hk vk
      = (host.take vk ++ [host.getD vk 0])
        ++ ((K.getD hk 0 :: t0)
          ++ ([K.getD hk 0, host.getD vk 0] ++ host.drop (vk + 1))) := by
    unfold spliceHole
    rw [htake, hrot, ha0]
    simp
  rw [hshape]
  have hmap : rpts points ((host.take vk ++ [host.getD vk 0])
        ++ ((K.getD hk 0 :: t0)
          ++ ([K.getD hk 0, host.getD vk 0] ++ host.drop (vk + 1))))
      = (rpts points (host.take vk) ++ [vAt points (host.getD vk 0)])
        ++ ((vAt points (K.getD hk 0) :: rpts points t0)
          ++ ([vAt points (K.getD hk 0), vAt points (host.getD vk 0)]
            ++ rpts points (host.drop (vk + 1)))) := by
    simp [rpts]
  rw [hmap, area2_splice_full]
  congr 1
  · have h2 : (rpts points (host.take vk) ++ [vAt points (host.getD vk 0)])
        ++ rpts points (host.drop (vk + 1))
        = rpts points ((host.take vk ++ [host.getD vk 0]) ++ host.drop (vk + 1)) := by
      simp [rpts]
    rw [h2, ← htake, List.take_append_drop]
  · have h3 : vAt points (K.getD hk 0) :: rpts points t0
        = rpts points (K.rotate hk) := by
      rw [hrot, ha0]
      simp [rpts]
    rw [h3, rpts_rotate, area2_rotate]

/-- Auxiliary: a fold that keeps either the accumulator or the new element
can only return a member (or the initial accumulator). -/
lemma foldl_choice_mem {α : Type} (f : Option α → α → Option α)
    (hf : ∀ acc x, f acc x = acc ∨ f acc x = some x) :
    ∀ (l : List α) (acc : Option α) (r : α),
      l.foldl f acc = some r → acc = some r ∨ r ∈ l := by
  intro l
  induction l with
  | nil =>
    intro acc r h
    exact Or.inl h
  | cons x xs ih =>
    intro acc r h
    rw [List.foldl_cons] at h
    rcases ih _ r h with h3 | h3
    · rcases hf acc x with h4 | h4
      · rw [h4] at h3
        exact Or.inl h3
      · rw [h4] at h3
        have hx : x = r := by injection h3
        exact Or.inr (by rw [hx]; exact List.mem_cons_self r xs)
    · exact Or.inr (List.mem_cons_of_mem x h3)

/-- Auxiliary: the chosen bridge is one of the feasible bridge candidates,
so its indices are in range. -/
lemma bestBridge_bounds (points : List Pt) (hosts holes : List (List ℕ))
    (K : List ℕ) (c : ℕ × ℕ × ℕ)
    (h : bestBridge points hosts holes K = some c) :
    c.1 < K.length ∧ c.2.1 < hosts.length
      ∧ c.2.2 < (hosts.getD c.2.1 []).length := by
  have hmem : c ∈ bridgeCands points hosts holes K := by
    unfold bestBridge at h
    rcases foldl_choice_mem _ (fun acc x => by
      cases acc with
      | none => exact Or.inr rfl
      | some b =>
        simp only []
        by_cases hlt : dist2 (vAt points (K.getD x.1 0))
            (vAt points ((hosts.getD x.2.1 []).getD x.2.2 0))
          < dist2 (vAt points (K.getD b.1 0))
            (vAt points ((hosts.getD b.2.1 []).getD b.2.2 0))
        · rw [if_pos hlt]
          exact Or.inr rfl
        · rw [if_neg hlt]
          exact Or.inl rfl) _ none c h with h3 | h3
    · exact absurd h3 (by simp)
    · exact h3
  unfold bridgeCands at hmem
  rw [List.mem_flatMap] at hmem
  obtain ⟨hk, hhk, hmem2⟩ := hmem
  rw [List.mem_flatMap] at hmem2
  obtain ⟨hi, hhi, hmem3⟩ := hmem2
  rw [List.mem_map] at hmem3
  obtain ⟨vk, hvk, rfl⟩ := hmem3
  rw [List.mem_filter] at hvk
  exact ⟨List.mem_range.mp hhk, List.mem_range.mp hhi,
    List.mem_range.mp hvk.1⟩

/-- Auxiliary: replacing one entry of a list shifts a mapped sum by the
difference of the images. -/
lemma sum_map_set (f : List ℕ → ℤ) (l : List (List ℕ)) (i : ℕ) (v : List ℕ)
    (hi : i < l.length) :
    ((l.set i v).map f).sum + f (l.getD i []) = (l.map f).sum + f v := by
  rw [List.set_eq_take_cons_drop _ hi]
  conv_rhs => rw [show l = l.take i ++ l[i] :: l.drop (i + 1) from by
    conv_lhs => rw [← List.take_append_drop i l, List.drop_eq_getElem_cons hi]]
  rw [List.getD_eq_getElem _ _ hi]
  simp only [List.map_append, List.sum_append, List.map_cons, List.sum_cons]
  ring

/-- Auxiliary: the hole merger preserves the total doubled signed area of
the arrangement (hosts plus remaining holes). -/
lemma mergeHolesAux_area (points : List Pt) :
    ∀ (fuel : ℕ) (hosts holes boundaries : List (List ℕ)),
      mergeHolesAux points fuel hosts holes = some boundaries →
      (boundaries.map fun B => area2 (rpts points B)).sum
        = (hosts.map fun B => area2 (rpts points B)).sum
          + (holes.map fun K => area2 (rpts points K)).sum := by
  intro fuel
  induction fuel with
  | zero =>
    intro hosts holes boundaries h
    cases holes with
    | nil =>
      have hb : hosts = boundaries := by
        simpa [mergeHolesAux] using h
      subst hb
      simp
    | cons K rest =>
      exact absurd h (by simp [mergeHolesAux])
  | succ fuel ih =>
    intro hosts holes boundaries h
    cases holes with
    | nil =>
      have hb : hosts = boundaries := by
        simpa [mergeHolesAux] using h
      subst hb
      simp
    | cons K rest =>
      rw [mergeHolesAux] at h
      rw [Option.bind_eq_some] at h
      obtain ⟨c, hb, hrec⟩ := h
      obtain ⟨hc1, hc2, hc3⟩ := bestBridge_bounds points hosts (K :: rest) K c hb
      have hrec2 := ih _ rest boundaries hrec
      have hsplice := spliceHole_area points (hosts.getD c.2.1 []) K c.1 c.2.2
        hc1 hc3
      have hset := sum_map_set (fun B => area2 (rpts points B)) hosts c.2.1
        (spliceHole (hosts.getD c.2.1 []) K c.1 c.2.2) hc2
      simp only [] at hset
      rw [hrec2]
      simp only [List.map_cons, List.sum_cons]
      omega

/-- Auxiliary: every vertex index used by a triangle of the ear-clipping
triangulator is drawn from its working list. -/
lemma triAux_mem (Q : List Pt) :
    ∀ (fuel : ℕ) (rem : List ℕ) (tris : List (List ℕ)),
      triAux Q fuel rem = some tris →
      ∀ t ∈ tris, ∀ x ∈ t, x ∈ rem := by
  intro fuel
  induction fuel with
  | zero =>
    intro rem tris h
    exact absurd h (by simp [triAux])
  | succ fuel ih =>
    intro rem tris h t ht x hx
    rw [triAux] at h
    by_cases h3 : rem.length < 3
    · rw [if_pos h3] at h
      exact absurd h (by simp)
    rw [if_neg h3] at h
    by_cases he : rem.length = 3
    · rw [if_pos he] at h
      have hlist : [rem] = tris := by
        injection h
      rw [← hlist] at ht
      have : t = rem := by simpa using ht
      rw [← this]
      exact hx
    rw [if_neg he] at h
    rw [Option.bind_eq_some] at h
    obtain ⟨k, hk, h2⟩ := h
    rw [Option.map_eq_some'] at h2
    obtain ⟨rest, hrest, rfl⟩ := h2
    have hm : 0 < rem.length := by omega
    have hmem : ∀ i, i < rem.length → rem.getD i 0 ∈ rem := by
      intro i hi
      rw [List.getD_eq_getElem _ _ hi]
      exact List.getElem_mem hi
    rcases List.mem_cons.mp ht with rfl | ht2
    · simp only [List.mem_cons, List.not_mem_nil, or_false] at hx
      have hklt : k < rem.length :=
        List.mem_range.mp (List.mem_of_find?_eq_some hk)
      rcases hx with rfl | rfl | rfl
      · exact hmem _ (Nat.mod_lt _ hm)
      · exact hmem _ hklt
      · exact hmem _ (Nat.mod_lt _ hm)
    · exact (List.eraseIdx_sublist rem k).subset (ih _ rest hrest t ht2 x hx)

/-- Auxiliary: a Hertel-Mehlhorn merge step only rearranges vertex indices
already present, so an upper bound on the indices is preserved. -/
lemma mergeStep_mem_bound (Q : List Pt) (n : ℕ) (pieces : List (List ℕ))
    (d : ℕ × ℕ) (hb : ∀ p ∈ pieces, ∀ x ∈ p, x < n) :
    ∀ p ∈ mergeStep Q pieces d, ∀ x ∈ p, x < n := by
  unfold mergeStep
  cases hX : pieces.find? fun p => hasDirEdge p d.1 d.2 with
  | none =>
    simp only [Option.none_bind, Option.getD_none]
    exact hb
  | some X =>
    simp only [Option.some_bind]
    cases hY : pieces.find? fun p => hasDirEdge p d.2 d.1 with
    | none =>
      simp only [Option.map_none', Option.getD_none]
      exact hb
    | some Y =>
      simp only [Option.map_some', Option.getD_some]
      by_cases hXY : X = Y
      · rw [if_pos hXY]
        exact hb
      rw [if_neg hXY]
      by_cases hok : mergeOk Q X Y d.1 d.2
      · rw [if_pos hok]
        intro p hp x hx
        rcases List.mem_cons.mp hp with rfl | hp2
        · unfold mergeLoops rotEdge at hx
          rcases List.mem_append.mp hx with h1 | h1
          · exact hb X (List.mem_of_find?_eq_some hX) x (List.mem_rotate.mp h1)
          · have h2 : x ∈ Y.rotate ((edgeStart Y d.2 d.1 + 1) % Y.length) :=
              ((List.dropLast_sublist _).trans (List.drop_sublist 1 _)).subset h1
            exact hb Y (List.mem_of_find?_eq_some hY) x (List.mem_rotate.mp h2)
        · have h3 : p ∈ pieces :=
            ((List.erase_sublist _ _).trans (List.erase_sublist _ _)).subset hp2
          exact hb p h3 x hx
      · rw [if_neg hok]
        exact hb

/-- Auxiliary: the index bound survives the whole diagonal-merging fold. -/
lemma foldl_mergeStep_mem_bound (Q : List Pt) (n : ℕ) :
    ∀ (ds : List (ℕ × ℕ)) (pieces : List (List ℕ)),
      (∀ p ∈ pieces, ∀ x ∈ p, x < n) →
      ∀ p ∈ ds.foldl (mergeStep Q) pieces, ∀ x ∈ p, x < n := by
  intro ds
  induction ds with
  | nil =>
    intro pieces hb
    exact hb
  | cons d ds ih =>
    intro pieces hb
    exact ih _ (mergeStep_mem_bound Q n pieces d hb)

/-- Auxiliary: every vertex position named by a Hertel-Mehlhorn part is in
range of the input polygon. -/
lemma partitionHMcore_mem_bound (Q : List Pt) (parts : List (List ℕ))
    (h : partitionHMcore Q = some parts) :
    ∀ p ∈ parts, ∀ x ∈ p, x < Q.length := by
  unfold partitionHMcore at h
  rw [Option.map_eq_some'] at h
  obtain ⟨tris, ht, rfl⟩ := h
  unfold triangulate at ht
  apply foldl_mergeStep_mem_bound
  intro t htm x hx
  exact List.mem_range.mp (triAux_mem Q _ _ tris ht t htm x hx)

/-- Auxiliary: running Hertel-Mehlhorn on one boundary loop (and mapping
positions back to point-table indices) preserves the boundary's doubled
area. -/
lemma runHM_area (points : List Pt) (B : List ℕ) (parts : List (List ℕ))
    (h : runHM points B = some parts) :
    (parts.map fun p => area2 (rpts points p)).sum = area2 (rpts points B) := by
  unfold runHM at h
  rw [Option.map_eq_some'] at h
  obtain ⟨core, hcore, rfl⟩ := h
  have hbound := partitionHMcore_mem_bound _ _ hcore
  have harea := partitionHMcore_area _ _ hcore
  rw [← harea, List.map_map]
  apply congrArg List.sum
  apply List.map_congr_left
  intro piece hpiece
  simp only [Function.comp_apply]
  congr 1
  unfold rpts
  rw [List.map_map]
  apply List.map_congr_left
  intro k hk
  have hklt : k < B.length := by
    have h1 := hbound piece hpiece k hk
    simpa [rpts] using h1
  simp only [Function.comp_apply]
  exact (getD_rpts points B k hklt).symm

/-- Auxiliary: partitioning every boundary and concatenating preserves the
total doubled area. -/
lemma applyParts_area (points : List Pt) :
    ∀ (bs parts : List (List ℕ)),
      applyParts points bs = some parts →
      (parts.map fun p => area2 (rpts points p)).sum
        = (bs.map fun B => area2 (rpts points B)).sum := by
  intro bs
  induction bs with
  | nil =>
    intro parts h
    have h0 : ([] : List (List ℕ)) = parts := by
      simpa [applyParts] using h
    rw [← h0]
  | cons B rest ih =>
    intro parts h
    rw [applyParts] at h
    rw [Option.bind_eq_some] at h
    obtain ⟨ps, hps, h2⟩ := h
    rw [Option.map_eq_some'] at h2
    obtain ⟨qs, hqs, rfl⟩ := h2
    simp only [List.map_append, List.sum_append, List.map_cons, List.sum_cons]
    rw [runHM_area _ _ _ hps, ih _ hqs]

/-- Auxiliary: no key press modifies the view list. -/
lemma key_press_views_eq (st : ViewerState) (key mods : ℤ) :
    (key_press_event st key mods).2.views = st.views := by
  simp only [key_press_event]
  split_ifs <;> rfl

/-- Auxiliary: a non-Space key press leaves `current_view_` unchanged. -/
lemma key_press_cv_nonspace (st : ViewerState) (key mods : ℤ)
    (hk : key ≠ GLFW_KEY_SPACE) :
    (key_press_event st key mods).2.current_view = st.current_view := by
  simp only [key_press_event, if_neg hk]
  split_ifs <;> rfl

/-- Auxiliary: a Space key press with a non-empty view list advances
`current_view_` by one modulo the number of views. -/
lemma key_press_cv_space (st : ViewerState) (mods : ℤ)
    (hne : st.views.isEmpty = false) :
    (key_press_event st GLFW_KEY_SPACE mods).2.current_view
      = (st.current_view + 1) % st.views.length := by
  have hcond : ¬ (st.views.isEmpty = true) := by simp [hne]
  simp only [key_press_event, if_pos rfl, if_neg hcond]
  split_ifs <;> rfl

/-- C8: in `RealCamera::KRT_to_camera` with method 2 the quaternion is built
from `rot_vec / angle` with `angle = rot_vec.length()` and no zero guard:
every in-range method-2 call succeeds and stores exactly that quotient as
the orientation axis, and the divisor `angle` vanishes precisely when the
view's rotation vector `(rx, ry, rz)` is zero, so the division is nonzero
only under the precondition that the rotation vector is nonzero. -/
theorem krt_method2_division_guard :
    (∀ v : CameraPara,
        methodTwoAngle v = 0 ↔ (v.rx, v.ry, v.rz) = ((0 : ℚ), (0 : ℚ), (0 : ℚ))) ∧
    (∀ (views : List CameraPara) (i : ℕ) (c : Camera), i < views.length →
      (KRT_to_camera views i 2 c).1 = true ∧
      ((KRT_to_camera views i 2 c).2).orientation =
        ⟨vdiv3 (-((views.getD i dummyPara).rx : ℝ), -((views.getD i dummyPara).ry : ℝ),
                -((views.getD i dummyPara).rz : ℝ))
           (methodTwoAngle (views.getD i dummyPara)),
         methodTwoAngle (views.getD i dummyPara)⟩) := by
  constructor
  · intro v
    have hval : methodTwoAngle v
        = Real.sqrt ((v.rx : ℝ) ^ 2 + (v.ry : ℝ) ^ 2 + (v.rz : ℝ) ^ 2) := by
      simp [methodTwoAngle, norm3]
    rw [hval, Real.sqrt_eq_zero (by positivity), Prod.mk.injEq, Prod.mk.injEq]
    constructor
    · intro h
      refine ⟨?_, ?_, ?_⟩
      · exact_mod_cast (show (v.rx : ℝ) = 0 by
          nlinarith [sq_nonneg (v.rx : ℝ), sq_nonneg (v.ry : ℝ), sq_nonneg (v.rz : ℝ)])
      · exact_mod_cast (show (v.ry : ℝ) = 0 by
          nlinarith [sq_nonneg (v.rx : ℝ), sq_nonneg (v.ry : ℝ), sq_nonneg (v.rz : ℝ)])
      · exact_mod_cast (show (v.rz : ℝ) = 0 by
          nlinarith [sq_nonneg (v.rx : ℝ), sq_nonneg (v.ry : ℝ), sq_nonneg (v.rz : ℝ)])
    · rintro ⟨e1, e2, e3⟩
      simp [e1, e2, e3]
  · intro views i c hi
    have hle : ¬ views.length ≤ i := not_le.mpr hi
    have hcond : ¬ (i < 0 ∨ views.length ≤ i) := by
      intro hor
      rcases hor with h0 | h0
      · exact Nat.not_lt_zero i h0
      · exact hle h0
    constructor
    · simp [KRT_to_camera, hcond, hle]
    · simp [KRT_to_camera, hcond, hle, setOrientation, setPosition, setFieldOfView]

/-- Witness for the in-range hypothesis of `krt_method2_division_guard` at a
concrete view list and index. -/
theorem krt_method2_division_guard_witness :
    (0 : ℕ) < [dummyPara].length ∧ (KRT_to_camera [dummyPara] 0 2 c0).1 = true :=
  ⟨by simp, (krt_method2_division_guard.2 [dummyPara] 0 c0 (by simp)).1⟩

/-- C9: `RealCamera::KRT_to_camera` returns `false` exactly when the view
index is out of range; the `view_index < 0` test on the unsigned index can
never fire; and for every in-range index the call returns `true` for every
method value, leaving the camera unmodified when the method is neither 1
nor 2. -/
theorem krt_return_value :
    ∀ (views : List CameraPara) (i : ℕ) (m : ℤ) (c : Camera),
      ((KRT_to_camera views i m c).1 = false ↔ views.length ≤ i) ∧
      (¬ i < 0) ∧
      (i < views.length → m ≠ 1 → m ≠ 2 → (KRT_to_camera views i m c).2 = c) := by
  intro views i m c
  refine ⟨?_, Nat.not_lt_zero i, ?_⟩
  · by_cases hi : views.length ≤ i
    · rw [KRT_to_camera, if_pos (Or.inr hi)]
      simp [hi]
    · have hcond : ¬ (i < 0 ∨ views.length ≤ i) := by
        intro hor
        rcases hor with h0 | h0
        · exact Nat.not_lt_zero i h0
        · exact hi h0
      rw [KRT_to_camera, if_neg hcond]
      split_ifs <;> simp [hi]
  · intro hi h1 h2
    have hle : ¬ views.length ≤ i := not_le.mpr hi
    have hcond : ¬ (i < 0 ∨ views.length ≤ i) := by
      intro hor
      rcases hor with h0 | h0
      · exact Nat.not_lt_zero i h0
      · exact hle h0
    rw [KRT_to_camera, if_neg hcond]
    simp [h1, h2]

/-- Witness for the hypotheses of `krt_return_value` at a concrete in-range
index and a method value other than 1 and 2. -/
theorem krt_return_value_witness :
    (0 : ℕ) < [dummyPara].length ∧ (7 : ℤ) ≠ 1 ∧ (7 : ℤ) ≠ 2 ∧
      (KRT_to_camera [dummyPara] 0 7 c0).2 = c0 :=
  ⟨by simp, by decide, by decide,
    (krt_return_value [dummyPara] 0 7 c0).2.2 (by simp) (by decide) (by decide)⟩

/-- C10: a Space key press with a non-empty view list advances
`current_view_` by one modulo `views_.size()`, which is in bounds for the
subsequent `views_[current_view_]` access; no key press changes the view
list, and every key-press transition preserves the invariant
`current_view_ < views_.size()`. -/
theorem space_key_view_invariant :
    ∀ (st : ViewerState) (key mods : ℤ),
      (st.views ≠ [] → key = GLFW_KEY_SPACE →
        (key_press_event st key mods).2.current_view
            = (st.current_view + 1) % st.views.length ∧
        (key_press_event st key mods).2.current_view < st.views.length) ∧
      ((key_press_event st key mods).2.views = st.views) ∧
      (st.current_view < st.views.length →
        (key_press_event st key mods).2.current_view
          < (key_press_event st key mods).2.views.length) := by
  intro st key mods
  have hlen : st.views ≠ [] →
      (st.current_view + 1) % st.views.length < st.views.length := by
    intro h
    exact Nat.mod_lt _ (List.length_pos.mpr h)
  refine ⟨?_, key_press_views_eq st key mods, ?_⟩
  · intro hne hk
    have hemp : st.views.isEmpty = false := by
      simpa [List.isEmpty_iff] using hne
    subst hk
    rw [key_press_cv_space st mods hemp]
    exact ⟨rfl, hlen hne⟩
  · intro hinv
    rw [key_press_views_eq st key mods]
    by_cases hk : key = GLFW_KEY_SPACE
    · by_cases hne : st.views = []
      · subst hk
        have hemp : st.views.isEmpty = true := by simp [hne]
        have hfix : (key_press_event st GLFW_KEY_SPACE mods).2.current_view
            = st.current_view := by
          simp [key_press_event, hemp]
        rw [hfix]
        exact hinv
      · have hemp : st.views.isEmpty = false := by
          simpa [List.isEmpty_iff] using hne
        subst hk
        rw [key_press_cv_space st mods hemp]
        exact hlen hne
    · rw [key_press_cv_nonspace st key mods hk]
      exact hinv

/-- Witness for the hypotheses of `space_key_view_invariant` at a concrete
one-view state and a Space key press. -/
theorem space_key_view_invariant_witness :
    (⟨0, [dummyPara], c0, "", 0, 0⟩ : ViewerState).views ≠ [] ∧
    (key_press_event ⟨0, [dummyPara], c0, "", 0, 0⟩ GLFW_KEY_SPACE 0).2.current_view
        = (0 + 1) % [dummyPara].length :=
  ⟨by simp, ((space_key_view_invariant ⟨0, [dummyPara], c0, "", 0, 0⟩ GLFW_KEY_SPACE 0).1
      (by simp) rfl).1⟩

/-- Auxiliary: the two outcomes of `apply_OPT` (validation or partitioning
fails with an empty part list, or partitioning succeeds). -/
lemma apply_OPT_shape (P : List Pt) :
    apply_OPT P = (false, []) ∨
      ∃ parts, validatePoly P = true ∧ partitionOPTcore P = some parts ∧
        apply_OPT P = (true, parts) := by
  unfold apply_OPT
  by_cases hv : validatePoly P
  · rw [if_pos hv]
    cases hp : partitionOPTcore P with
    | none => exact Or.inl rfl
    | some parts => exact Or.inr ⟨parts, hv, rfl, rfl⟩
  · rw [if_neg hv]
    exact Or.inl rfl

/-- Auxiliary: the two outcomes of `apply_HM`. -/
lemma apply_HM_shape (P : List Pt) :
    apply_HM P = (false, []) ∨
      ∃ parts, validatePoly P = true ∧ partitionHMcore P = some parts ∧
        apply_HM P = (true, parts) := by
  unfold apply_HM
  by_cases hv : validatePoly P
  · rw [if_pos hv]
    cases hp : partitionHMcore P with
    | none => exact Or.inl rfl
    | some parts => exact Or.inr ⟨parts, hv, rfl, rfl⟩
  · rw [if_neg hv]
    exact Or.inl rfl

/-- Auxiliary: the two outcomes of `apply`. -/
lemma apply_shape (points : List Pt) (polys holes : List (List ℕ)) :
    apply points polys holes = (false, []) ∨
      ∃ boundaries parts, validateApply points polys holes = true ∧
        merge_holes points polys holes = some boundaries ∧
        applyParts points boundaries = some parts ∧
        apply points polys holes = (true, parts) := by
  unfold apply
  by_cases hv : validateApply points polys holes
  · rw [if_pos hv]
    cases hm : merge_holes points polys holes with
    | none => exact Or.inl rfl
    | some boundaries =>
      cases hp : applyParts points boundaries with
      | none =>
        refine Or.inl ?_
        simp [hp]
      | some parts =>
        exact Or.inr ⟨boundaries, parts, hv, rfl, hp, by simp [hp]⟩
  · rw [if_neg hv]
    exact Or.inl rfl

/-- C5: each facade operation reports failure only through its boolean
result and leaves the parts list empty whenever it fails; in particular a
polygon with fewer than 3 vertices or a self-intersecting boundary is
rejected by `apply_OPT` and `apply_HM` with an empty parts list. -/
theorem facade_failure_leaves_parts_empty :
    (∀ P : List Pt, (apply_OPT P).1 = false → (apply_OPT P).2 = []) ∧
    (∀ P : List Pt, (apply_HM P).1 = false → (apply_HM P).2 = []) ∧
    (∀ (points : List Pt) (polys holes : List (List ℕ)),
      (apply points polys holes).1 = false → (apply points polys holes).2 = []) ∧
    (∀ P : List Pt, P.length < 3 ∨ selfIntersecting P = true →
      apply_OPT P = (false, []) ∧ apply_HM P = (false, [])) := by
  have hval : ∀ P : List Pt, P.length < 3 ∨ selfIntersecting P = true →
      validatePoly P = false := by
    intro P h
    rcases h with h | h
    · have h3 : ¬ (3 ≤ P.length) := by omega
      simp [validatePoly, isSimplePoly, h3]
    · have he : edgePairsOk P = false := by
        simpa [selfIntersecting] using h
      simp [validatePoly, isSimplePoly, he]
  refine ⟨?_, ?_, ?_, ?_⟩
  · intro P h
    rcases apply_OPT_shape P with h0 | ⟨parts, _, _, h0⟩
    · rw [h0]
    · rw [h0] at h
      simp at h
  · intro P h
    rcases apply_HM_shape P with h0 | ⟨parts, _, _, h0⟩
    · rw [h0]
    · rw [h0] at h
      simp at h
  · intro points polys holes h
    rcases apply_shape points polys holes with h0 | ⟨b, parts, _, _, _, h0⟩
    · rw [h0]
    · rw [h0] at h
      simp at h
  · intro P h
    have hv := hval P h
    constructor
    · unfold apply_OPT
      rw [if_neg (by simp [hv])]
    · unfold apply_HM
      rw [if_neg (by simp [hv])]

/-- Witness for the hypotheses of `facade_failure_leaves_parts_empty` at
concrete rejected inputs: a self-intersecting bowtie, an out-of-range index
list, and a 2-vertex polygon. -/
theorem facade_failure_leaves_parts_empty_witness :
    (apply_OPT bowtie).2 = [] ∧ (apply_HM bowtie).2 = [] ∧
    (apply ([] : List Pt) [[0]] []).2 = [] ∧
    (apply_OPT [((0 : ℤ), (0 : ℤ)), (1, 0)] = (false, []) ∧
      apply_HM [((0 : ℤ), (0 : ℤ)), (1, 0)] = (false, [])) :=
  ⟨facade_failure_leaves_parts_empty.1 bowtie (by decide),
   facade_failure_leaves_parts_empty.2.1 bowtie (by decide),
   facade_failure_leaves_parts_empty.2.2.1 [] [[0]] [] (by decide),
   facade_failure_leaves_parts_empty.2.2.2 [((0 : ℤ), (0 : ℤ)), (1, 0)]
     (Or.inl (by decide))⟩

/-- C7: on the L-shaped hexagon with exactly one reflex vertex, `apply_OPT`
succeeds with exactly 2 convex parts, and `apply_HM` also returns exactly
2 convex parts whose doubled signed areas sum to the doubled signed area of
the L-shape (the union reconstructs the L). -/
theorem lshape_single_notch_two_parts :
    reflexCount Lshape = 1 ∧
    (apply_OPT Lshape).1 = true ∧ (apply_OPT Lshape).2.length = 2 ∧
    ((apply_OPT Lshape).2.all fun p => isConvexLoop (rpts Lshape p)) = true ∧
    (apply_HM Lshape).1 = true ∧ (apply_HM Lshape).2.length = 2 ∧
    ((apply_HM Lshape).2.all fun p => isConvexLoop (rpts Lshape p)) = true ∧
    ((apply_OPT Lshape).2.map fun p => area2 (rpts Lshape p)).sum = area2 Lshape ∧
    ((apply_HM Lshape).2.map fun p => area2 (rpts Lshape p)).sum = area2 Lshape := by
  decide

/-- C6: `apply` always reduces to the Hertel-Mehlhorn strategy: with no
holes the hole merger returns the boundaries unchanged and each one is
partitioned by Hertel-Mehlhorn, so for a single counter-clockwise polygon
with in-range indices and no holes, `apply` returns exactly the parts of
`apply_HM` on that polygon (translated back through the polygon's index
list). -/
theorem apply_single_poly_no_holes_is_HM :
    ∀ (points : List Pt) (poly : List ℕ),
      (∀ i ∈ poly, i < points.length) →
      (apply points [poly] []).1 = (apply_HM (rpts points poly)).1 ∧
      (apply points [poly] []).2
        = (apply_HM (rpts points poly)).2.map (List.map fun k => poly.getD k 0) := by
  intro points poly h
  have hb : (poly.all fun i => decide (i < points.length)) = true := by
    rw [List.all_eq_true]
    intro i hi
    exact decide_eq_true (h i hi)
  have hva : validateApply points [poly] [] = validatePoly (rpts points poly) := by
    unfold validateApply loopsNoCross
    simp [hb]
  have hmh : merge_holes points [poly] [] = some [poly] := rfl
  unfold apply
  by_cases hv : validatePoly (rpts points poly) = true
  · rw [if_pos (by rw [hva]; exact hv), hmh]
    unfold apply_HM
    rw [if_pos hv]
    unfold applyParts runHM
    cases hp : partitionHMcore (rpts points poly) with
    | none => simp [hp]
    | some parts => simp [hp, applyParts]
  · rw [if_neg (by rw [hva]; exact hv)]
    unfold apply_HM
    rw [if_neg hv]
    simp

/-- Witness for the hypotheses of `apply_single_poly_no_holes_is_HM` at the
unit square with the identity index list. -/
theorem apply_single_poly_no_holes_is_HM_witness :
    (∀ i ∈ [0, 1, 2, 3], i < unitSquare.length) ∧
    (apply unitSquare [[0, 1, 2, 3]] []).2
      = (apply_HM (rpts unitSquare [0, 1, 2, 3])).2.map
          (List.map fun k => [0, 1, 2, 3].getD k 0) :=
  ⟨by decide,
   (apply_single_poly_no_holes_is_HM unitSquare [0, 1, 2, 3] (by decide)).2⟩

/-- C3: area preservation.  Whenever `apply_OPT` or `apply_HM` accepts a
polygon, the sum of the (doubled) signed areas of the returned parts equals
the (doubled) signed area of the input polygon, exactly (the embedding is
exact integer arithmetic, so the tolerance is zero); and whenever `apply`
accepts a polygon-with-holes input, the total signed area of the returned
parts equals the signed area of the outer polygons plus the (negative)
signed area of the clockwise holes, i.e. outer area minus hole area. -/
theorem partition_preserves_area
    (poly points : List Pt) (polys holes : List (List ℕ))
    (partsO partsH partsA : List (List ℕ))
    (hO : apply_OPT poly = (true, partsO))
    (hH : apply_HM poly = (true, partsH))
    (hA : apply points polys holes = (true, partsA)) :
    ((partsO.map fun p => area2 (rpts poly p)).sum = area2 poly)
    ∧ ((partsH.map fun p => area2 (rpts poly p)).sum = area2 poly)
    ∧ ((partsA.map fun p => area2 (rpts points p)).sum
        = (polys.map fun B => area2 (rpts points B)).sum
          + (holes.map fun K => area2 (rpts points K)).sum) := by
  refine ⟨?_, ?_, ?_⟩
  · rcases apply_OPT_shape poly with hsh | ⟨parts, _, hcore, heq⟩
    · rw [hO] at hsh
      exact absurd hsh (by simp)
    · rw [hO] at heq
      have hp : parts = partsO := by
        have h2 := congrArg Prod.snd heq
        simpa using h2.symm
      rw [← hp]
      exact partitionOPTcore_area poly parts hcore
  · rcases apply_HM_shape poly with hsh | ⟨parts, _, hcore, heq⟩
    · rw [hH] at hsh
      exact absurd hsh (by simp)
    · rw [hH] at heq
      have hp : parts = partsH := by
        have h2 := congrArg Prod.snd heq
        simpa using h2.symm
      rw [← hp]
      exact partitionHMcore_area poly parts hcore
  · rcases apply_shape points polys holes with hsh
        | ⟨boundaries, parts, _, hm, hps, heq⟩
    · rw [hA] at hsh
      exact absurd hsh (by simp)
    · rw [hA] at heq
      have hp : parts = partsA := by
        have h2 := congrArg Prod.snd heq
        simpa using h2.symm
      rw [← hp, applyParts_area points boundaries parts hps]
      exact mergeHolesAux_area points holes.length polys holes boundaries hm

/-- Witness for C3 at concrete accepted inputs: the unit square for the two
hole-free facades and the square-with-a-square-hole scenario for `apply`. -/
theorem partition_preserves_area_witness :
    ((([[0, 1, 2, 3]] : List (List ℕ)).map fun p =>
        area2 (rpts unitSquare p)).sum = area2 unitSquare)
    ∧ ((([[3, 0, 1, 2]] : List (List ℕ)).map fun p =>
        area2 (rpts unitSquare p)).sum = area2 unitSquare)
    ∧ ((([[0, 1, 7, 4], [3, 5, 6, 2], [1, 2, 6, 7], [3, 0, 4, 5]] :
          List (List ℕ)).map fun p => area2 (rpts holeSquarePts p)).sum
        = (([[0, 1, 2, 3]] : List (List ℕ)).map fun B =>
            area2 (rpts holeSquarePts B)).sum
          + (([[4, 5, 6, 7]] : List (List ℕ)).map fun K =>
            area2 (rpts holeSquarePts K)).sum) :=
  partition_preserves_area unitSquare holeSquarePts [[0, 1, 2, 3]] [[4, 5, 6, 7]]
    [[0, 1, 2, 3]] [[3, 0, 1, 2]]
    [[0, 1, 7, 4], [3, 5, 6, 2], [1, 2, 6, 7], [3, 0, 4, 5]]
    (by decide) (by decide)
    (by set_option maxRecDepth 10000 in decide)

/-- Auxiliary: `crossTurn` is invariant under cyclic permutation of its
arguments. -/
lemma crossTurn_cyc (a b c : Pt) : crossTurn a b c = crossTurn b c a := by
  unfold crossTurn
  ring

/-- Auxiliary: `crossTurn` is negated by swapping its last two arguments. -/
lemma crossTurn_swap (a b c : Pt) : crossTurn a b c = -crossTurn a c b := by
  unfold crossTurn
  ring

/-- Auxiliary: unpacking the strictly-convex-position test. -/
lemma strictConvexPos_spec (P : List Pt) (h : strictConvexPos P = true) :
    ∀ i j k : ℕ, i < j → j < k → k < P.length →
      0 < crossTurn (vAt P i) (vAt P j) (vAt P k) := by
  intro i j k hij hjk hk
  simp only [strictConvexPos, List.all_eq_true, List.mem_range] at h
  exact of_decide_eq_true (h k hk j hjk i hij)

/-- Auxiliary: entries of a dropped range list. -/
lemma drop_range_getD (n t i : ℕ) (h : i < n - t) :
    ((List.range n).drop t).getD i 0 = t + i := by
  have h1 : i < ((List.range n).drop t).length := by
    rw [List.length_drop, List.length_range]
    exact h
  rw [List.getD_eq_getElem _ _ h1, List.getElem_drop, List.getElem_range]

/-- Auxiliary: membership in a dropped range list. -/
lemma mem_drop_range (n t j : ℕ) :
    j ∈ (List.range n).drop t ↔ t ≤ j ∧ j < n := by
  constructor
  · intro hm
    rw [List.mem_iff_getElem] at hm
    obtain ⟨i, hi, hv⟩ := hm
    rw [List.length_drop, List.length_range] at hi
    rw [List.getElem_drop, List.getElem_range] at hv
    omega
  · intro ⟨h1, h2⟩
    rw [List.mem_iff_getElem]
    refine ⟨j - t, ?_, ?_⟩
    · rw [List.length_drop, List.length_range]
      omega
    · rw [List.getElem_drop, List.getElem_range]
      omega

/-- Auxiliary: the tail of a dropped range list. -/
lemma drop_range_length (n t : ℕ) : ((List.range n).drop t).length = n - t := by
  rw [List.length_drop, List.length_range]

/-- Auxiliary: `findIdx` locates the first position satisfying the
predicate (stated via `getD`). -/
lemma findIdx_spec (q : ℕ → Bool) :
    ∀ (l : List ℕ) (k : ℕ), k < l.length → q (l.getD k 0) = true →
      (∀ i, i < k → q (l.getD i 0) = false) → l.findIdx q = k := by
  intro l
  induction l with
  | nil =>
    intro k hk
    exact absurd hk (by simp)
  | cons x xs ih =>
    intro k hk ht hf
    cases k with
    | zero =>
      rw [List.getD_cons_zero] at ht
      rw [List.findIdx_cons, ht]
      rfl
    | succ k =>
      have hx : q x = false := by
        have h0 := hf 0 (Nat.succ_pos k)
        rwa [List.getD_cons_zero] at h0
      rw [List.findIdx_cons, hx]
      have hrec : xs.findIdx q = k := by
        apply ih k (by simpa using hk)
        · rwa [List.getD_cons_succ] at ht
        · intro i hi
          have h1 := hf (i + 1) (by omega)
          rwa [List.getD_cons_succ] at h1
      simp [hrec]

/-- Auxiliary: `findIdx` over a range list locates the first index
satisfying the predicate. -/
lemma findIdx_range (q : ℕ → Bool) (m k : ℕ) (hk : k < m) (ht : q k = true)
    (hf : ∀ i, i < k → q i = false) : (List.range m).findIdx q = k := by
  apply findIdx_spec q (List.range m) k (by simpa using hk)
  · rw [List.getD_eq_getElem _ _ (by simpa using hk), List.getElem_range]
    exact ht
  · intro i hi
    rw [List.getD_eq_getElem _ _ (by simp; omega), List.getElem_range]
    exact hf i hi

/-- Auxiliary: a `flatMap` of conditional singletons is a mapped filter. -/
lemma flatMap_if_singleton {α β : Type} (p : α → Bool) (x : α → β) :
    ∀ l : List α,
      (l.flatMap fun a => if p a then [x a] else []) = (l.filter p).map x := by
  intro l
  induction l with
  | nil => rfl
  | cons a as ih =>
    rw [List.flatMap_cons, ih, List.filter_cons]
    by_cases hp : p a
    · rw [if_pos hp, if_pos hp]
      rfl
    · rw [if_neg hp, if_neg hp]
      rfl

/-- Auxiliary: filtering a range list by an upper bound truncates it. -/
lemma filter_range_lt (k : ℕ) :
    ∀ m : ℕ, (List.range m).filter (fun i => decide (i < k)) = List.range (min k m) := by
  intro m
  induction m with
  | zero => simp
  | succ m ih =>
    rw [List.range_succ, List.filter_append, ih]
    by_cases hm : m < k
    · rw [show min k (m + 1) = m + 1 by omega, List.range_succ,
        show min k m = m by omega]
      simp [hm]
    · rw [show min k (m + 1) = min k m by omega]
      simp [hm]

/-- Auxiliary: for a strictly convex polygon, the head of any tail segment
of the vertex sequence is always an ear. -/
lemma isEar_convex (P : List Pt) (hconv : strictConvexPos P = true)
    (t : ℕ) (h4 : t + 4 ≤ P.length) :
    isEar P ((List.range P.length).drop t) 0 = true := by
  have hsc := strictConvexPos_spec P hconv
  have hm := drop_range_length P.length t
  simp only [isEar, hm]
  have e1 : (0 + (P.length - t) - 1) % (P.length - t) = P.length - t - 1 := by
    rw [Nat.zero_add, Nat.mod_eq_of_lt (by omega)]
  have e2 : (0 + 1) % (P.length - t) = 1 := by
    rw [Nat.zero_add, Nat.mod_eq_of_lt (by omega)]
  simp only [e1, e2, drop_range_getD P.length t (P.length - t - 1) (by omega),
    drop_range_getD P.length t 0 (by omega),
    drop_range_getD P.length t 1 (by omega),
    show t + (P.length - t - 1) = P.length - 1 from by omega, Nat.add_zero]
  rw [Bool.and_eq_true]
  constructor
  · apply decide_eq_true
    rw [crossTurn_cyc]
    exact hsc t (t + 1) (P.length - 1) (by omega) (by omega) (by omega)
  · rw [List.all_eq_true]
    intro j hj
    rw [mem_drop_range] at hj
    by_cases hj1 : j = P.length - 1
    · simp [hj1]
    by_cases hj2 : j = t
    · simp [hj2]
    by_cases hj3 : j = t + 1
    · simp [hj3]
    have hlt : crossTurn (vAt P (t + 1)) (vAt P (P.length - 1)) (vAt P j) < 0 := by
      rw [crossTurn_swap]
      have hpos := hsc (t + 1) j (P.length - 1) (by omega) (by omega) (by omega)
      linarith
    have hd : decide (0 ≤ crossTurn (vAt P (t + 1)) (vAt P (P.length - 1))
        (vAt P j)) = false := decide_eq_false (not_le.mpr hlt)
    have hin : inTriangle (vAt P (P.length - 1)) (vAt P t) (vAt P (t + 1))
        (vAt P j) = false := by
      simp [inTriangle, hd]
    simp [hin]

/-- Auxiliary: on a strictly convex polygon the ear-clipping triangulator
produces the fan of triangles rooted at the last vertex. -/
lemma triAux_fan (P : List Pt) (hconv : strictConvexPos P = true) :
    ∀ (fuel t : ℕ), P.length - t ≤ fuel → t + 3 ≤ P.length →
      triAux P fuel ((List.range P.length).drop t)
        = some ((List.range (P.length - 3 - t)).map
              (fun i => [P.length - 1, t + i, t + i + 1])
            ++ [[P.length - 3, P.length - 2, P.length - 1]]) := by
  intro fuel
  induction fuel with
  | zero =>
    intro t hf h3
    exact absurd hf (by omega)
  | succ fuel ih =>
    intro t hf h3
    have hlen := drop_range_length P.length t
    rw [triAux]
    simp only [hlen]
    by_cases hcase : P.length - t = 3
    · rw [if_neg (by omega), if_pos hcase]
      have hdecomp : (List.range P.length).drop t
          = [P.length - 3, P.length - 2, P.length - 1] := by
        have h1 : List.range P.length = List.range (P.length - 3)
            ++ List.map (fun x => (P.length - 3) + x) (List.range 3) := by
          conv_lhs => rw [show P.length = (P.length - 3) + 3 from by omega,
            List.range_add]
        have h2 := List.drop_left (List.range (P.length - 3))
          (List.map (fun x => (P.length - 3) + x) (List.range 3))
        rw [List.length_range] at h2
        rw [show t = P.length - 3 from by omega, h1, h2,
          show List.range 3 = [0, 1, 2] from rfl]
        simp only [List.map_cons, List.map_nil]
        rw [show P.length - 3 + 0 = P.length - 3 from by omega,
          show P.length - 3 + 1 = P.length - 2 from by omega,
          show P.length - 3 + 2 = P.length - 1 from by omega]
      rw [hdecomp, show P.length - 3 - t = 0 from by omega]
      rfl
    · rw [if_neg (by omega), if_neg hcase]
      obtain ⟨m', hm'⟩ : ∃ m', P.length - t = m' + 1 := ⟨P.length - t - 1, by omega⟩
      have hfind : (List.range (P.length - t)).find?
          (fun k => isEar P ((List.range P.length).drop t) k) = some 0 := by
        rw [hm', List.range_succ_eq_map]
        exact List.find?_cons_of_pos _ (isEar_convex P hconv t (by omega))
      rw [hfind]
      simp only [Option.some_bind]
      have herase : ((List.range P.length).drop t).eraseIdx 0
          = (List.range P.length).drop (t + 1) := by
        rw [show ∀ l : List ℕ, l.eraseIdx 0 = l.tail from fun l => by
            cases l <;> rfl,
          List.tail_drop]
      rw [herase, ih (t + 1) (by omega) (by omega)]
      simp only [Option.map_some']
      have e1 : (0 + (P.length - t) - 1) % (P.length - t) = P.length - t - 1 := by
        rw [Nat.zero_add, Nat.mod_eq_of_lt (by omega)]
      have e2 : (0 + 1) % (P.length - t) = 1 := by
        rw [Nat.zero_add, Nat.mod_eq_of_lt (by omega)]
      simp only [e1, e2,
        drop_range_getD P.length t (P.length - t - 1) (by omega),
        drop_range_getD P.length t 0 (by omega),
        drop_range_getD P.length t 1 (by omega),
        show t + (P.length - t - 1) = P.length - 1 from by omega, Nat.add_zero]
      congr 1
      rw [show P.length - 3 - t = (P.length - 4 - t) + 1 from by omega,
        List.range_succ_eq_map, List.map_cons, List.map_map, List.cons_append]
      congr 1
      rw [show P.length - 3 - (t + 1) = P.length - 4 - t from by omega]
      congr 1
      apply List.map_congr_left
      intro i _
      simp only [Function.comp_apply, Nat.succ_eq_add_one, List.cons.injEq,
        and_true]
      refine ⟨trivial, by omega, by omega⟩

/-- Auxiliary: directed-edge membership in a triangle, explicitly. -/
lemma hasDirEdge_three (x y z a b : ℕ) :
    hasDirEdge [x, y, z] a b = true ↔
      (x = a ∧ y = b) ∨ (y = a ∧ z = b) ∨ (z = a ∧ x = b) := by
  unfold hasDirEdge
  rw [show ([x, y, z] : List ℕ).length = 3 from rfl,
    show List.range 3 = [0, 1, 2] from rfl]
  simp [List.getD_cons_zero, List.getD_cons_succ]

/-- Auxiliary: an index pair is an edge of the fan triangulation iff it is
a boundary edge or a fan diagonal to the last vertex. -/
lemma fan_edge_char (n a b : ℕ) (h3 : 3 ≤ n) (hab : a < b) (hbn : b < n) :
    (((List.range (n - 3)).map (fun i => [n - 1, i, i + 1])
        ++ [[n - 3, n - 2, n - 1]]).any
      (fun t => hasDirEdge t a b || hasDirEdge t b a)) = true
    ↔ (b = a + 1 ∨ (b = n - 1 ∧ a ≤ n - 3)) := by
  rw [List.any_eq_true]
  constructor
  · rintro ⟨t, ht, hdir⟩
    rw [List.mem_append] at ht
    rcases ht with ht | ht
    · rw [List.mem_map] at ht
      obtain ⟨i, hi, rfl⟩ := ht
      rw [List.mem_range] at hi
      rw [Bool.or_eq_true] at hdir
      rcases hdir with h | h <;> rw [hasDirEdge_three] at h <;>
        rcases h with ⟨h1, h2⟩ | ⟨h1, h2⟩ | ⟨h1, h2⟩ <;> omega
    · have ht2 : t = [n - 3, n - 2, n - 1] := by simpa using ht
      subst ht2
      rw [Bool.or_eq_true] at hdir
      rcases hdir with h | h <;> rw [hasDirEdge_three] at h <;>
        rcases h with ⟨h1, h2⟩ | ⟨h1, h2⟩ | ⟨h1, h2⟩ <;> omega
  · intro hcase
    rcases hcase with hb | ⟨hb, ha⟩
    · by_cases hasmall : a < n - 3
      · refine ⟨[n - 1, a, a + 1], ?_, ?_⟩
        · rw [List.mem_append]
          left
          rw [List.mem_map]
          exact ⟨a, List.mem_range.mpr hasmall, rfl⟩
        · rw [Bool.or_eq_true]
          left
          rw [hasDirEdge_three]
          right
          left
          omega
      · refine ⟨[n - 3, n - 2, n - 1], ?_, ?_⟩
        · rw [List.mem_append]
          right
          simp
        · rw [Bool.or_eq_true]
          left
          rw [hasDirEdge_three]
          by_cases hc : a = n - 3
          · left
            omega
          · right
            left
            omega
    · by_cases hasmall : a < n - 3
      · refine ⟨[n - 1, a, a + 1], ?_, ?_⟩
        · rw [List.mem_append]
          left
          rw [List.mem_map]
          exact ⟨a, List.mem_range.mpr hasmall, rfl⟩
        · rw [Bool.or_eq_true]
          right
          rw [hasDirEdge_three]
          left
          omega
      · refine ⟨[n - 3, n - 2, n - 1], ?_, ?_⟩
        · rw [List.mem_append]
          right
          simp
        · rw [Bool.or_eq_true]
          right
          rw [hasDirEdge_three]
          right
          right
          omega

/-- Auxiliary: pointwise form of the diagonal filter of `hmDiags` on the
fan triangulation: only the fan diagonals to the last vertex survive. -/
lemma fan_gpred_eq (n a b : ℕ) (h3 : 3 ≤ n) (hb : b < n) :
    (decide (a < b) && !(decide (b = a + 1)) &&
      !(decide (a = 0) && decide (b = n - 1)) &&
      (((List.range (n - 3)).map (fun i => [n - 1, i, i + 1])
        ++ [[n - 3, n - 2, n - 1]]).any
        (fun t => hasDirEdge t a b || hasDirEdge t b a)))
    = (decide (b = n - 1) && decide (1 ≤ a) && decide (a + 3 ≤ n)) := by
  rw [Bool.eq_iff_iff]
  simp only [Bool.and_eq_true, Bool.not_eq_true', Bool.and_eq_false_iff,
    decide_eq_true_eq, decide_eq_false_iff_not]
  constructor
  · rintro ⟨⟨⟨hab, hne⟩, hno⟩, hedge⟩
    rw [fan_edge_char n a b h3 hab hb] at hedge
    rcases hedge with h | ⟨h1, h2⟩
    · exact absurd h hne
    · refine ⟨⟨h1, ?_⟩, by omega⟩
      rcases hno with h | h <;> omega
  · rintro ⟨⟨hb1, ha1⟩, ha3⟩
    have hab : a < b := by omega
    refine ⟨⟨⟨hab, by omega⟩, Or.inl (by omega)⟩, ?_⟩
    rw [fan_edge_char n a b h3 hab hb]
    right
    exact ⟨hb1, by omega⟩

/-- Auxiliary: a `flatMap` of conditional singletons over a decidable
condition is a mapped filter. -/
lemma flatMap_ite_singleton {α β : Type} (P : α → Prop) [DecidablePred P]
    (x : α → β) :
    ∀ l : List α,
      (l.flatMap fun a => if P a then [x a] else [])
        = (l.filter fun a => decide (P a)).map x := by
  intro l
  induction l with
  | nil => rfl
  | cons a as ih =>
    rw [List.flatMap_cons, ih, List.filter_cons]
    by_cases hp : P a
    · rw [if_pos hp, if_pos (decide_eq_true hp)]
      rfl
    · rw [if_neg hp, if_neg (by simpa using hp)]
      rfl

/-- Auxiliary: filtering a range for its last element. -/
lemma filter_range_last (m : ℕ) :
    (List.range (m + 1)).filter (fun b => decide (b = m)) = [m] := by
  rw [List.range_succ, List.filter_append]
  have h1 : (List.range m).filter (fun b => decide (b = m)) = [] := by
    rw [List.filter_eq_nil_iff]
    intro b hb
    rw [List.mem_range] at hb
    simp
    omega
  rw [h1]
  simp

/-- Auxiliary: the shared diagonals of the fan triangulation are exactly
the fan diagonals `(a, n-1)` for `1 ≤ a ≤ n-3`, in increasing order. -/
lemma hmDiags_fan (n : ℕ) (h3 : 3 ≤ n) :
    hmDiags n ((List.range (n - 3)).map (fun i => [n - 1, i, i + 1])
        ++ [[n - 3, n - 2, n - 1]])
      = (List.range (n - 3)).map (fun a => (a + 1, n - 1)) := by
  unfold hmDiags
  have hstep1 : ∀ a ∈ List.range n,
      ((List.range n).filter fun b =>
        decide (a < b) && !(decide (b = a + 1)) &&
          !(decide (a = 0) && decide (b = n - 1)) &&
          (((List.range (n - 3)).map (fun i => [n - 1, i, i + 1])
            ++ [[n - 3, n - 2, n - 1]]).any
            (fun t => hasDirEdge t a b || hasDirEdge t b a))).map
          (fun b => (a, b))
      = if 1 ≤ a ∧ a + 3 ≤ n then [(a, n - 1)] else [] := by
    intro a ha
    have hfc : ((List.range n).filter fun b =>
        decide (a < b) && !(decide (b = a + 1)) &&
          !(decide (a = 0) && decide (b = n - 1)) &&
          (((List.range (n - 3)).map (fun i => [n - 1, i, i + 1])
            ++ [[n - 3, n - 2, n - 1]]).any
            (fun t => hasDirEdge t a b || hasDirEdge t b a)))
        = (List.range n).filter fun b =>
            decide (b = n - 1) && decide (1 ≤ a) && decide (a + 3 ≤ n) := by
      apply List.filter_congr
      intro b hb
      exact fan_gpred_eq n a b h3 (List.mem_range.mp hb)
    rw [hfc]
    by_cases hc : 1 ≤ a ∧ a + 3 ≤ n
    · rw [if_pos hc]
      have hfc2 : ((List.range n).filter fun b =>
          decide (b = n - 1) && decide (1 ≤ a) && decide (a + 3 ≤ n))
          = (List.range n).filter fun b => decide (b = n - 1) := by
        apply List.filter_congr
        intro b _
        rw [decide_eq_true hc.1, decide_eq_true hc.2]
        simp
      rw [hfc2]
      obtain ⟨m, rfl⟩ : ∃ m, n = m + 1 := ⟨n - 1, by omega⟩
      rw [show m + 1 - 1 = m from rfl, filter_range_last]
      rfl
    · rw [if_neg hc]
      have hfc3 : ((List.range n).filter fun b =>
          decide (b = n - 1) && decide (1 ≤ a) && decide (a + 3 ≤ n)) = [] := by
        rw [List.filter_eq_nil_iff]
        intro b _
        simp only [Bool.and_eq_true, decide_eq_true_eq]
        intro ⟨⟨_, h1⟩, h2⟩
        exact hc ⟨h1, h2⟩
      rw [hfc3]
      rfl
  rw [List.flatMap_congr hstep1, flatMap_ite_singleton
    (fun a => 1 ≤ a ∧ a + 3 ≤ n) (fun a => (a, n - 1)) (List.range n)]
  have hfilter : ((List.range n).filter fun a => decide (1 ≤ a ∧ a + 3 ≤ n))
      = (List.range (n - 3)).map (fun i => 1 + i) := by
    have hr : List.range n
        = List.range 1 ++ List.map (fun x => 1 + x) (List.range (n - 1)) := by
      rw [← List.range_add]
      congr 1
      omega
    rw [hr, List.filter_append, List.filter_map]
    have hz : (List.range 1).filter (fun a => decide (1 ≤ a ∧ a + 3 ≤ n)) = [] := by
      rw [show List.range 1 = [0] from rfl]
      simp
    rw [hz]
    have hfc4 : (List.range (n - 1)).filter
        ((fun a => decide (1 ≤ a ∧ a + 3 ≤ n)) ∘ (fun x => 1 + x))
        = (List.range (n - 1)).filter fun i => decide (i < n - 3) := by
      apply List.filter_congr
      intro i _
      simp only [Function.comp_apply]
      rw [Bool.eq_iff_iff]
      simp only [decide_eq_true_eq]
      omega
    rw [hfc4, filter_range_lt, show min (n - 3) (n - 1) = n - 3 from by omega,
      List.nil_append]
  rw [hfilter, List.map_map]
  apply List.map_congr_left
  intro i _
  simp only [Function.comp_apply]
  rw [Nat.add_comm 1 i]

/-- Auxiliary: entries of a range list via `getD`. -/
lemma getD_range (n i : ℕ) (h : i < n) : (List.range n).getD i 0 = i := by
  rw [List.getD_eq_getElem _ _ (by simpa using h), List.getElem_range]

/-- Auxiliary: the other cyclic permutation of `crossTurn`. -/
lemma crossTurn_cyc' (a b c : Pt) : crossTurn a b c = crossTurn c a b := by
  unfold crossTurn
  ring

/-- Auxiliary: the growing merged fan piece contains its closing directed
edge from its last vertex back to the apex. -/
lemma hasDirEdge_bigM_close (n j : ℕ) (hj : j + 2 ≤ n) :
    hasDirEdge ((n - 1) :: List.range (j + 1)) j (n - 1) = true := by
  unfold hasDirEdge
  have hlen : ((n - 1) :: List.range (j + 1)).length = j + 2 := by
    simp [List.length_range]
  simp only [hlen]
  rw [List.any_eq_true]
  refine ⟨j + 1, List.mem_range.mpr (by omega), ?_⟩
  rw [Bool.and_eq_true]
  constructor
  · apply decide_eq_true
    rw [List.getD_cons_succ, getD_range (j + 1) j (by omega)]
  · apply decide_eq_true
    rw [show j + 1 + 1 = j + 2 from rfl, Nat.mod_self, List.getD_cons_zero]

/-- Auxiliary: the growing merged fan piece does not contain the reversed
closing edge. -/
lemma hasDirEdge_bigM_rev (n j : ℕ) (hj1 : 1 ≤ j) (hj2 : j + 2 ≤ n) :
    hasDirEdge ((n - 1) :: List.range (j + 1)) (n - 1) j = false := by
  unfold hasDirEdge
  have hlen : ((n - 1) :: List.range (j + 1)).length = j + 2 := by
    simp [List.length_range]
  simp only [hlen]
  rw [List.any_eq_false]
  intro k hk
  rw [List.mem_range] at hk
  simp only [Bool.and_eq_true, decide_eq_true_eq, not_and]
  cases k with
  | zero =>
    intro _
    rw [show (0 + 1) % (j + 2) = 1 from Nat.mod_eq_of_lt (by omega),
      List.getD_cons_succ, getD_range (j + 1) 0 (by omega)]
    omega
  | succ i =>
    intro hbad
    rw [List.getD_cons_succ, getD_range (j + 1) i (by omega)] at hbad
    omega

/-- Auxiliary: the merged fan piece is already rotated so that its closing
edge is last-to-first; `rotEdge` leaves it unchanged. -/
lemma rotEdge_bigM (n j : ℕ) (hj1 : 1 ≤ j) (hj2 : j + 2 ≤ n) :
    rotEdge ((n - 1) :: List.range (j + 1)) j (n - 1)
      = (n - 1) :: List.range (j + 1) := by
  unfold rotEdge edgeStart
  have hlen : ((n - 1) :: List.range (j + 1)).length = j + 2 := by
    simp [List.length_range]
  simp only [hlen]
  rw [findIdx_range _ (j + 2) (j + 1) (by omega) ?_ ?_]
  · rw [show j + 1 + 1 = j + 2 from rfl, Nat.mod_self, List.rotate_zero]
  · rw [Bool.and_eq_true]
    constructor
    · apply decide_eq_true
      rw [List.getD_cons_succ, getD_range (j + 1) j (by omega)]
    · apply decide_eq_true
      rw [show j + 1 + 1 = j + 2 from rfl, Nat.mod_self, List.getD_cons_zero]
  · intro i hi
    cases i with
    | zero =>
      rw [Bool.eq_false_iff]
      simp only [ne_eq, Bool.and_eq_true, decide_eq_true_eq, not_and]
      intro hbad
      rw [List.getD_cons_zero] at hbad
      omega
    | succ i' =>
      rw [Bool.eq_false_iff]
      simp only [ne_eq, Bool.and_eq_true, decide_eq_true_eq, not_and]
      intro hbad
      rw [List.getD_cons_succ, getD_range (j + 1) i' (by omega)] at hbad
      omega

/-- Auxiliary: rotating the fan triangle on its reversed diagonal edge. -/
lemma rotEdge_fan_tri (n j : ℕ) (hj : j + 2 ≤ n) :
    rotEdge [n - 1, j, j + 1] (n - 1) j = [j, j + 1, n - 1] := by
  unfold rotEdge edgeStart
  rw [show ([n - 1, j, j + 1] : List ℕ).length = 3 from rfl]
  rw [findIdx_range _ 3 0 (by omega) ?_ (by intro i hi; omega)]
  · rw [show (0 + 1) % 3 = 1 from rfl]
    rw [List.rotate_eq_drop_append_take (by rw [show ([n - 1, j, j + 1] : List ℕ).length = 3 from rfl]; omega)]
    rfl
  · rw [Bool.and_eq_true]
    exact ⟨decide_eq_true rfl, decide_eq_true rfl⟩

/-- Auxiliary: rotating the last fan triangle on its reversed diagonal
edge leaves it unchanged. -/
lemma rotEdge_last_tri (n j : ℕ) (hj : j + 3 = n) :
    rotEdge [n - 3, n - 2, n - 1] (n - 1) j = [n - 3, n - 2, n - 1] := by
  unfold rotEdge edgeStart
  rw [show ([n - 3, n - 2, n - 1] : List ℕ).length = 3 from rfl]
  rw [findIdx_range _ 3 2 (by omega) ?_ ?_]
  · rw [show (2 + 1) % 3 = 0 from rfl, List.rotate_zero]
  · rw [Bool.and_eq_true]
    constructor
    · exact decide_eq_true rfl
    · rw [show (2 + 1) % 3 = 0 from rfl]
      exact decide_eq_true (by
        rw [show ([n - 3, n - 2, n - 1] : List ℕ).getD 0 0 = n - 3 from rfl]
        omega)
  · intro i hi
    interval_cases i
    · rw [Bool.eq_false_iff]
      simp only [ne_eq, Bool.and_eq_true, decide_eq_true_eq, not_and]
      intro hbad
      rw [show ([n - 3, n - 2, n - 1] : List ℕ).getD 0 0 = n - 3 from rfl] at hbad
      omega
    · rw [Bool.eq_false_iff]
      simp only [ne_eq, Bool.and_eq_true, decide_eq_true_eq, not_and]
      intro hbad
      rw [show ([n - 3, n - 2, n - 1] : List ℕ).getD 1 0 = n - 2 from rfl] at hbad
      omega

/-- Auxiliary: one Hertel-Mehlhorn merge step on a strictly convex polygon
absorbs the next fan triangle into the growing merged piece. -/
lemma mergeStep_fan (P : List Pt) (hconv : strictConvexPos P = true)
    (j : ℕ) (hj1 : 1 ≤ j) (hj4 : j + 4 ≤ P.length) :
    mergeStep P
      (((P.length - 1) :: List.range (j + 1))
        :: ((List.range (P.length - 3 - j)).map
              (fun i => [P.length - 1, j + i, j + i + 1])
            ++ [[P.length - 3, P.length - 2, P.length - 1]]))
      (j, P.length - 1)
    = ((P.length - 1) :: List.range (j + 2))
        :: ((List.range (P.length - 3 - (j + 1))).map
              (fun i => [P.length - 1, (j + 1) + i, (j + 1) + i + 1])
            ++ [[P.length - 3, P.length - 2, P.length - 1]]) := by
  have hsc := strictConvexPos_spec P hconv
  have hdec : (List.range (P.length - 3 - j)).map
      (fun i => [P.length - 1, j + i, j + i + 1])
      = [P.length - 1, j, j + 1]
        :: (List.range (P.length - 3 - (j + 1))).map
            (fun i => [P.length - 1, (j + 1) + i, (j + 1) + i + 1]) := by
    rw [show P.length - 3 - j = (P.length - 3 - (j + 1)) + 1 from by omega,
      List.range_succ_eq_map, List.map_cons, List.map_map]
    congr 1
    apply List.map_congr_left
    intro i _
    simp only [Function.comp_apply, Nat.succ_eq_add_one, List.cons.injEq,
      and_true]
    refine ⟨trivial, by omega, by omega⟩
  rw [hdec, List.cons_append]
  unfold mergeStep
  have hfX : (((P.length - 1) :: List.range (j + 1))
      :: ([P.length - 1, j, j + 1]
        :: ((List.range (P.length - 3 - (j + 1))).map
              (fun i => [P.length - 1, (j + 1) + i, (j + 1) + i + 1])
            ++ [[P.length - 3, P.length - 2, P.length - 1]]))).find?
      (fun p => hasDirEdge p (j, P.length - 1).1 (j, P.length - 1).2)
      = some ((P.length - 1) :: List.range (j + 1)) :=
    List.find?_cons_of_pos _ (hasDirEdge_bigM_close P.length j (by omega))
  rw [hfX]
  simp only [Option.some_bind]
  have hfY : (((P.length - 1) :: List.range (j + 1))
      :: ([P.length - 1, j, j + 1]
        :: ((List.range (P.length - 3 - (j + 1))).map
              (fun i => [P.length - 1, (j + 1) + i, (j + 1) + i + 1])
            ++ [[P.length - 3, P.length - 2, P.length - 1]]))).find?
      (fun p => hasDirEdge p (j, P.length - 1).2 (j, P.length - 1).1)
      = some [P.length - 1, j, j + 1] := by
    rw [List.find?_cons_of_neg _ (by
      rw [hasDirEdge_bigM_rev P.length j hj1 (by omega)]
      simp)]
    exact List.find?_cons_of_pos _ (by
      rw [hasDirEdge_three]
      exact Or.inl ⟨rfl, rfl⟩)
  rw [hfY]
  simp only [Option.map_some', Option.getD_some]
  have hne : ((P.length - 1) :: List.range (j + 1))
      ≠ [P.length - 1, j, j + 1] := by
    intro h
    have h2 := congrArg (fun l => l.getD 1 0) h
    simp only [List.getD_cons_succ, List.getD_cons_zero] at h2
    rw [getD_range (j + 1) 0 (by omega)] at h2
    omega
  rw [if_neg hne]
  have hlen : ((P.length - 1) :: List.range (j + 1)).length = j + 2 := by
    simp [List.length_range]
  have hgD : ∀ i, 1 ≤ i → i ≤ j →
      ((P.length - 1) :: List.range (j + 1)).getD i 0 = i - 1 := by
    intro i h1 h2
    obtain ⟨i', rfl⟩ : ∃ i', i = i' + 1 := ⟨i - 1, by omega⟩
    rw [List.getD_cons_succ, getD_range (j + 1) i' (by omega)]
    omega
  have hok : mergeOk P ((P.length - 1) :: List.range (j + 1))
      [P.length - 1, j, j + 1] (j, P.length - 1).1 (j, P.length - 1).2 = true := by
    simp only [mergeOk]
    rw [rotEdge_bigM P.length j hj1 (by omega),
      rotEdge_fan_tri P.length j (by omega)]
    rw [show (([j, j + 1, P.length - 1] : List ℕ).drop 1).dropLast
        = [j + 1] from rfl]
    rw [hlen, show j + 2 - 2 = j from rfl, hgD j hj1 le_rfl]
    rw [show ([j + 1] : List ℕ).headD (j, P.length - 1).2 = j + 1 from rfl,
      show ([j + 1] : List ℕ).getLastD (j, P.length - 1).1 = j + 1 from rfl]
    rw [List.getD_cons_succ, getD_range (j + 1) 0 (by omega)]
    rw [Bool.and_eq_true]
    constructor
    · apply decide_eq_true
      exact le_of_lt (hsc (j - 1) j (j + 1) (by omega) (by omega) (by omega))
    · apply decide_eq_true
      rw [crossTurn_cyc']
      exact le_of_lt (hsc 0 (j + 1) (P.length - 1) (by omega) (by omega)
        (by omega))
  rw [if_pos hok]
  rw [List.erase_cons_head, List.erase_cons_head]
  congr 1
  unfold mergeLoops
  rw [rotEdge_bigM P.length j hj1 (by omega),
    rotEdge_fan_tri P.length j (by omega)]
  rw [show (([j, j + 1, P.length - 1] : List ℕ).drop 1).dropLast
      = [j + 1] from rfl]
  rw [List.cons_append]
  congr 1
  exact (List.range_succ (j + 1)).symm

/-- Auxiliary: the final Hertel-Mehlhorn merge step on a strictly convex
polygon absorbs the last triangle, leaving a single piece. -/
lemma mergeStep_fan_last (P : List Pt) (hconv : strictConvexPos P = true)
    (j : ℕ) (hj1 : 1 ≤ j) (hj : j + 3 = P.length) :
    mergeStep P
      [(P.length - 1) :: List.range (j + 1),
        [P.length - 3, P.length - 2, P.length - 1]]
      (j, P.length - 1)
    = [(P.length - 1) :: List.range (j + 2)] := by
  have hsc := strictConvexPos_spec P hconv
  unfold mergeStep
  have hfX : ([(P.length - 1) :: List.range (j + 1),
      [P.length - 3, P.length - 2, P.length - 1]]).find?
      (fun p => hasDirEdge p (j, P.length - 1).1 (j, P.length - 1).2)
      = some ((P.length - 1) :: List.range (j + 1)) :=
    List.find?_cons_of_pos _ (hasDirEdge_bigM_close P.length j (by omega))
  rw [hfX]
  simp only [Option.some_bind]
  have hfY : ([(P.length - 1) :: List.range (j + 1),
      [P.length - 3, P.length - 2, P.length - 1]]).find?
      (fun p => hasDirEdge p (j, P.length - 1).2 (j, P.length - 1).1)
      = some [P.length - 3, P.length - 2, P.length - 1] := by
    rw [List.find?_cons_of_neg _ (by
      rw [hasDirEdge_bigM_rev P.length j hj1 (by omega)]
      simp)]
    exact List.find?_cons_of_pos _ (by
      rw [hasDirEdge_three]
      right
      right
      exact ⟨rfl, by omega⟩)
  rw [hfY]
  simp only [Option.map_some', Option.getD_some]
  have hne : ((P.length - 1) :: List.range (j + 1))
      ≠ [P.length - 3, P.length - 2, P.length - 1] := by
    intro h
    have h2 := congrArg (fun l => l.getD 0 0) h
    simp only [List.getD_cons_zero] at h2
    omega
  rw [if_neg hne]
  have hlen : ((P.length - 1) :: List.range (j + 1)).length = j + 2 := by
    simp [List.length_range]
  have hgD : ∀ i, 1 ≤ i → i ≤ j →
      ((P.length - 1) :: List.range (j + 1)).getD i 0 = i - 1 := by
    intro i h1 h2
    obtain ⟨i', rfl⟩ : ∃ i', i = i' + 1 := ⟨i - 1, by omega⟩
    rw [List.getD_cons_succ, getD_range (j + 1) i' (by omega)]
    omega
  have hok : mergeOk P ((P.length - 1) :: List.range (j + 1))
      [P.length - 3, P.length - 2, P.length - 1]
      (j, P.length - 1).1 (j, P.length - 1).2 = true := by
    simp only [mergeOk]
    rw [rotEdge_bigM P.length j hj1 (by omega), rotEdge_last_tri P.length j hj]
    rw [show (([P.length - 3, P.length - 2, P.length - 1] : List ℕ).drop
        1).dropLast = [P.length - 2] from rfl]
    rw [hlen, show j + 2 - 2 = j from rfl, hgD j hj1 le_rfl]
    rw [show ([P.length - 2] : List ℕ).headD (j, P.length - 1).2
        = P.length - 2 from rfl,
      show ([P.length - 2] : List ℕ).getLastD (j, P.length - 1).1
        = P.length - 2 from rfl]
    rw [List.getD_cons_succ, getD_range (j + 1) 0 (by omega)]
    rw [Bool.and_eq_true]
    constructor
    · apply decide_eq_true
      exact le_of_lt (hsc (j - 1) j (P.length - 2) (by omega) (by omega)
        (by omega))
    · apply decide_eq_true
      rw [crossTurn_cyc']
      exact le_of_lt (hsc 0 (P.length - 2) (P.length - 1) (by omega) (by omega)
        (by omega))
  rw [if_pos hok]
  rw [List.erase_cons_head, List.erase_cons_head]
  congr 1
  unfold mergeLoops
  rw [rotEdge_bigM P.length j hj1 (by omega), rotEdge_last_tri P.length j hj]
  rw [show (([P.length - 3, P.length - 2, P.length - 1] : List ℕ).drop
      1).dropLast = [P.length - 2] from rfl]
  rw [show P.length - 2 = j + 1 from by omega, List.cons_append]
  congr 1
  exact (List.range_succ (j + 1)).symm

/-- Auxiliary: folding the merge step over the first `k` fan diagonals
grows the merged piece to cover the first `k + 1` fan triangles. -/
lemma foldl_fan (P : List Pt) (hconv : strictConvexPos P = true) :
    ∀ k, k + 4 ≤ P.length →
      ((List.range k).map (fun a => (a + 1, P.length - 1))).foldl (mergeStep P)
        (((P.length - 1) :: List.range 2)
          :: ((List.range (P.length - 4)).map
                (fun i => [P.length - 1, 1 + i, 1 + i + 1])
              ++ [[P.length - 3, P.length - 2, P.length - 1]]))
      = ((P.length - 1) :: List.range (k + 2))
          :: ((List.range (P.length - 3 - (k + 1))).map
                (fun i => [P.length - 1, (k + 1) + i, (k + 1) + i + 1])
              ++ [[P.length - 3, P.length - 2, P.length - 1]]) := by
  intro k
  induction k with
  | zero =>
    intro hk
    simp only [List.range_zero, List.map_nil, List.foldl_nil]
    rw [show P.length - 3 - (0 + 1) = P.length - 4 from by omega]
  | succ k ih =>
    intro hk
    have hsucc : (List.range (k + 1)).map (fun a => (a + 1, P.length - 1))
        = (List.range k).map (fun a => (a + 1, P.length - 1))
          ++ [(k + 1, P.length - 1)] := by
      rw [List.range_succ, List.map_append]
      rfl
    rw [hsucc, List.foldl_append, ih (by omega)]
    simp only [List.foldl_cons, List.foldl_nil]
    exact mergeStep_fan P hconv (k + 1) (by omega) (by omega)

/-- Auxiliary: on a strictly convex polygon the Hertel-Mehlhorn core merges
the whole fan triangulation back into a single rotated copy of the input
loop. -/
lemma partitionHMcore_convex (P : List Pt) (hconv : strictConvexPos P = true)
    (h3 : 3 ≤ P.length) :
    ∃ r, partitionHMcore P = some [(List.range P.length).rotate r] := by
  unfold partitionHMcore triangulate
  rw [List.length_range]
  have htri := triAux_fan P hconv P.length 0 (by omega) (by omega)
  rw [List.drop_zero, Nat.sub_zero] at htri
  have hfix : (List.range (P.length - 3)).map
      (fun i => [P.length - 1, 0 + i, 0 + i + 1])
      = (List.range (P.length - 3)).map (fun i => [P.length - 1, i, i + 1]) := by
    apply List.map_congr_left
    intro i _
    rw [Nat.zero_add]
  rw [hfix] at htri
  rw [htri]
  simp only [Option.map_some']
  rw [hmDiags_fan P.length h3]
  by_cases hn : P.length = 3
  · refine ⟨0, ?_⟩
    rw [List.rotate_zero, hn]
    rfl
  · have h4 : 4 ≤ P.length := by omega
    have hinit : (List.range (P.length - 3)).map
          (fun i => [P.length - 1, i, i + 1])
        = ((P.length - 1) :: List.range 2)
          :: (List.range (P.length - 4)).map
              (fun i => [P.length - 1, 1 + i, 1 + i + 1]) := by
      rw [show P.length - 3 = (P.length - 4) + 1 from by omega,
        List.range_succ_eq_map, List.map_cons, List.map_map]
      congr 1
      apply List.map_congr_left
      intro i _
      simp only [Function.comp_apply, Nat.succ_eq_add_one, List.cons.injEq,
        and_true]
      refine ⟨trivial, by omega, by omega⟩
    rw [hinit, List.cons_append]
    have hdiags : (List.range (P.length - 3)).map
          (fun a => (a + 1, P.length - 1))
        = (List.range (P.length - 4)).map (fun a => (a + 1, P.length - 1))
          ++ [(P.length - 4 + 1, P.length - 1)] := by
      rw [show P.length - 3 = (P.length - 4) + 1 from by omega,
        List.range_succ, List.map_append]
      rfl
    rw [hdiags, List.foldl_append, foldl_fan P hconv (P.length - 4) (by omega)]
    simp only [List.foldl_cons, List.foldl_nil]
    rw [show P.length - 3 - (P.length - 4 + 1) = 0 from by omega]
    simp only [List.range_zero, List.map_nil, List.nil_append]
    rw [show P.length - 4 + 1 = P.length - 3 from by omega]
    have hlast := mergeStep_fan_last P hconv (P.length - 3) (by omega)
      (by omega)
    rw [show P.length - 4 + 2 = P.length - 3 + 1 from by omega, hlast,
      show P.length - 3 + 2 = P.length - 1 from by omega]
    refine ⟨P.length - 1, ?_⟩
    have hsplit : List.range P.length
        = List.range (P.length - 1) ++ [P.length - 1] := by
      conv_lhs => rw [show P.length = (P.length - 1) + 1 from by omega,
        List.range_succ]
    rw [List.rotate_eq_drop_append_take
      (by rw [List.length_range]; omega)]
    rw [List.take_range, show min (P.length - 1) P.length = P.length - 1
      from by omega]
    rw [hsplit]
    have hdrop := List.drop_left (List.range (P.length - 1)) [P.length - 1]
    rw [List.length_range] at hdrop
    rw [hdrop]
    rfl

/-- Auxiliary: strict convex position implies the tolerant convex-loop
test. -/
lemma isConvexLoop_of_strict (P : List Pt) (h3 : 3 ≤ P.length)
    (hconv : strictConvexPos P = true) : isConvexLoop P = true := by
  have hsc := strictConvexPos_spec P hconv
  unfold isConvexLoop
  rw [List.all_eq_true]
  intro i hi
  rw [List.mem_range] at hi
  apply decide_eq_true
  simp only [vtx]
  by_cases hi0 : i = 0
  · subst hi0
    rw [show 0 + P.length - 1 = P.length - 1 from by omega,
      Nat.mod_eq_of_lt (by omega), Nat.zero_mod,
      Nat.mod_eq_of_lt (by omega)]
    rw [crossTurn_cyc]
    exact le_of_lt (hsc 0 1 (P.length - 1) (by omega) (by omega) (by omega))
  by_cases hin : i = P.length - 1
  · rw [show i + P.length - 1 = (P.length - 2) + P.length from by omega,
      Nat.add_mod_right, Nat.mod_eq_of_lt (by omega),
      Nat.mod_eq_of_lt (by omega), show i + 1 = P.length from by omega,
      Nat.mod_self, hin]
    rw [crossTurn_cyc']
    exact le_of_lt (hsc 0 (P.length - 2) (P.length - 1) (by omega) (by omega)
      (by omega))
  · rw [show i + P.length - 1 = (i - 1) + P.length from by omega,
      Nat.add_mod_right, Nat.mod_eq_of_lt (by omega),
      Nat.mod_eq_of_lt (by omega), Nat.mod_eq_of_lt (by omega)]
    exact le_of_lt (hsc (i - 1) i (i + 1) (by omega) (by omega) (by omega))

/-- Auxiliary: on a strictly convex polygon the optimal partitioner returns
the single full loop immediately. -/
lemma partitionOPTcore_convex (P : List Pt) (hconv : strictConvexPos P = true)
    (h3 : 3 ≤ P.length) :
    partitionOPTcore P = some [List.range P.length] := by
  unfold partitionOPTcore
  have hmap : (List.range P.length).map (vAt P) = P := rpts_range P
  obtain ⟨f, hf⟩ : ∃ f, P.length = f + 1 := ⟨P.length - 1, by omega⟩
  rw [hf] at hmap ⊢
  rw [optAux]
  rw [hmap, if_pos (isConvexLoop_of_strict P h3 hconv)]

/-- C4: convex input invariance.  For every polygon whose vertices are in
strictly convex position in counter-clockwise order (and which passes the
facade validation), `apply_OPT` succeeds with exactly one part, namely the
identity vertex loop `0, ..., n-1`, and `apply_HM` succeeds with exactly
one part which is the same loop up to a rotation of the starting vertex
(so, resolved to points, the part is the input polygon up to rotation); in
particular this holds for the unit square `(0,0),(1,0),(1,1),(0,1)`. -/
theorem convex_input_single_part (P : List Pt)
    (h3 : 3 ≤ P.length) (hconv : strictConvexPos P = true)
    (hvalid : validatePoly P = true) :
    apply_OPT P = (true, [List.range P.length])
    ∧ ∃ r, apply_HM P = (true, [(List.range P.length).rotate r])
        ∧ rpts P ((List.range P.length).rotate r) = P.rotate r := by
  constructor
  · unfold apply_OPT
    rw [if_pos hvalid, partitionOPTcore_convex P hconv h3]
  · obtain ⟨r, hr⟩ := partitionHMcore_convex P hconv h3
    refine ⟨r, ?_, ?_⟩
    · unfold apply_HM
      rw [if_pos hvalid, hr]
    · rw [rpts_rotate, rpts_range]

/-- Witness for C4 at the unit square: both facades accept it, the optimal
partitioner returns the single identity loop and Hertel-Mehlhorn returns a
single rotated loop. -/
theorem convex_input_single_part_witness :
    (3 ≤ unitSquare.length ∧ strictConvexPos unitSquare = true
      ∧ validatePoly unitSquare = true)
    ∧ (apply_OPT unitSquare = (true, [List.range unitSquare.length])
      ∧ ∃ r, apply_HM unitSquare
            = (true, [(List.range unitSquare.length).rotate r])
          ∧ rpts unitSquare ((List.range unitSquare.length).rotate r)
            = unitSquare.rotate r) :=
  ⟨⟨by decide, by decide, by decide⟩,
    convex_input_single_part unitSquare (by decide) (by decide) (by decide)⟩

end Easy3D
